import Mathlib

/-!
Verification of the blackjack expectation engine (`blackjack` crate).

This file gives a shallow embedding of the data model and the core
algorithms of the crate (`src/blackjack/src/statearray.rs`,
`src/blackjack/src/lib.rs`, `src/blackjack/src/calculation.rs`,
`src/blackjack/src/calculation2.rs`,
`src/blackjack/src/calculation/split_ex.rs`) and proves or refutes the
behavioural claims about them.

Modelling conventions:
* `u16`/`u32`/`u128` counters are modelled as `ℕ`; subtraction is the
  truncated natural subtraction (Rust panics or wraps on underflow; all
  theorems below stay inside the non-underflowing domain, stated by
  explicit hypotheses).  Where overflow genuinely matters
  (the `u128` packing of `DoubleCardCountIndex`) the reduction
  `% 2 ^ 128` appears explicitly.
* `f64` expectation values are modelled exactly over `ℚ`, extended with a
  bottom element `EV.negInf` that mirrors the `-f64::INFINITY` sentinel
  used by the source.
* The memoized recursions of the source are embedded as pure structurally
  recursive functions on an explicit fuel argument; the memo tables only
  cache values that are functions of the visited state, so the embedding
  computes exactly the values the tables hold.
-/

/-- Source `MOD` from `statearray.rs`: a prime with 62 bits. -/
def MOD : ℕ := 3817949514078926267

/-- Source `BASE` from `statearray.rs`. -/
def BASE : ℕ := 211

/-- Source `get_powers_of_base` from `statearray.rs`: `ret[0] = 1`,
`ret[i] = ret[i-1] * BASE % MOD`. -/
def powBase : ℕ → ℕ
  | 0 => 1
  | n + 1 => powBase n * BASE % MOD

/-- Source `CardCount` from `statearray.rs`: counts per card value 1..=10
(index `i` holds the count of value `i+1`) together with the incrementally
maintained fingerprint, hard sum and card total. -/
structure CardCount where
  counts : Fin 10 → ℕ
  hash_value : ℕ
  sum : ℕ
  total : ℕ

namespace CardCount

/-- Index of a card value 1..=10 into the counts array (`(card_value - 1)`
in the source; the `% 10` keeps the function total, every use below is at
values 1..=10 where it is the identity on `card_value - 1`). -/
def idx (cardValue : ℕ) : Fin 10 := ⟨(cardValue - 1) % 10, Nat.mod_lt _ (by norm_num)⟩

/-- The fingerprint recomputed from scratch, as `propagate_counts` does:
`hash_value = (Σ counts[i] * POW_BASE[i]) % MOD`. -/
def scratchHash (counts : Fin 10 → ℕ) : ℕ :=
  (∑ i : Fin 10, counts i * powBase i) % MOD

/-- Source `CardCount::new` / `propagate_counts` from `statearray.rs`. -/
def new (counts : Fin 10 → ℕ) : CardCount where
  counts := counts
  hash_value := scratchHash counts
  sum := ∑ i : Fin 10, (i.val + 1) * counts i
  total := ∑ i : Fin 10, counts i

/-- Source `CardCount::with_number_of_decks` from `statearray.rs`:
4 of each value 1..=9 and 16 tens per deck. -/
def withNumberOfDecks (numberOfDecks : ℕ) : CardCount :=
  new fun i => if i.val = 9 then numberOfDecks * 16 else numberOfDecks * 4

/-- Source `CardCount::add_card` from `statearray.rs`. -/
def addCard (cc : CardCount) (cardValue : ℕ) : CardCount where
  counts := Function.update cc.counts (idx cardValue) (cc.counts (idx cardValue) + 1)
  hash_value := (cc.hash_value + powBase (idx cardValue).val) % MOD
  sum := cc.sum + cardValue
  total := cc.total + 1

/-- Source `CardCount::remove_card` from `statearray.rs`. -/
def removeCard (cc : CardCount) (cardValue : ℕ) : CardCount where
  counts := Function.update cc.counts (idx cardValue) (cc.counts (idx cardValue) - 1)
  hash_value := (cc.hash_value + MOD - powBase (idx cardValue).val) % MOD
  sum := cc.sum - cardValue
  total := cc.total - 1

/-- Source `Index<u8> for CardCount`: `self.counts[(index - 1) as usize]`. -/
def get (cc : CardCount) (cardValue : ℕ) : ℕ := cc.counts (idx cardValue)

/-- Source `CardCount::is_soft`. -/
def isSoft (cc : CardCount) : Bool := 0 < cc.counts (idx 1)

/-- Source `CardCount::bust`. -/
def bust (cc : CardCount) : Bool := 21 < cc.sum

/-- Source `CardCount::is_natural`. -/
def isNatural (cc : CardCount) : Bool :=
  cc.total = 2 && cc.counts (idx 1) = 1 && cc.counts (idx 10) = 1

/-- Source `CardCount::get_actual_sum`. -/
def getActualSum (cc : CardCount) : ℕ :=
  if cc.isSoft && cc.sum + 10 ≤ 21 then cc.sum + 10 else cc.sum

/-- The redundant fields of a `CardCount` agree with its counts: this holds
for every value built by `CardCount::new` and is preserved by
`add_card`/`remove_card` on valid inputs. -/
def wf (cc : CardCount) : Prop :=
  cc.hash_value = scratchHash cc.counts ∧
    cc.sum = ∑ i : Fin 10, (i.val + 1) * cc.counts i ∧
    cc.total = ∑ i : Fin 10, cc.counts i

instance : DecidableEq CardCount := fun a b => by
  cases a; cases b
  exact decidable_of_iff _ (Iff.of_eq (CardCount.mk.injEq _ _ _ _ _ _ _ _)).symm

instance (cc : CardCount) : Decidable (wf cc) := by
  unfold wf; infer_instance

end CardCount

/-- Source `HandState` from `statearray.rs` (the 2-bit resolution tag of the first
split hand). -/
inductive HandState where
  | PlaceHolder
  | Normal
  | Surrender
  | Double
  deriving DecidableEq

/-- The discriminant values of `HandState` (`PlaceHolder = 0`, then in
declaration order), used by the `mul0 as u128` cast. -/
def HandState.val : HandState → ℕ
  | .PlaceHolder => 0
  | .Normal => 1
  | .Surrender => 2
  | .Double => 3

/-- Source `DoubleCardCountIndex::new` from `statearray.rs`:
`hand0.hash_value | ((mul0 as u128) << 62) | (hand1.hash_value << 64)`,
in `u128` arithmetic. -/
def doubleCardCountIndex (hand0 : CardCount) (mul0 : HandState) (hand1 : CardCount) : ℕ :=
  (hand0.hash_value ||| (HandState.val mul0 <<< 62) ||| (hand1.hash_value <<< 64)) % 2 ^ 128

/-- Source `SingleStateArray` from `statearray.rs`: a map keyed by
`CardCount::hash_value`, modelled as an association list. -/
structure SingleStateArray (T : Type) where
  data : List (ℕ × T)

namespace SingleStateArray

/-- The empty array (`SingleStateArray::new`). -/
def new {T : Type} : SingleStateArray T := ⟨[]⟩

/-- Source `SingleStateArray::contains_state`:
`self.data.contains_key(&index.hash_value)`. -/
def containsState {T : Type} (a : SingleStateArray T) (index : CardCount) : Bool :=
  (a.data.lookup index.hash_value).isSome

/-- Source `Index<&CardCount> for SingleStateArray` (read-only indexing):
`&self.data[&index.hash_value]` panics when the key is absent, so the
result is an `Option`, `none` standing for the panic. -/
def index {T : Type} (a : SingleStateArray T) (i : CardCount) : Option T :=
  a.data.lookup i.hash_value

/-- Source `IndexMut<&CardCount> for SingleStateArray`: inserts the default value
when the key is absent.  This models the state of the array after
`&mut self[index]` is obtained (before any assignment through it). -/
def indexMutTouch {T : Type} [Inhabited T] (a : SingleStateArray T) (i : CardCount) :
    SingleStateArray T :=
  if (a.data.lookup i.hash_value).isSome then a
  else ⟨(i.hash_value, (default : T)) :: a.data⟩

/-- Writing `a[i] = v` through `IndexMut`. -/
def write {T : Type} (a : SingleStateArray T) (i : CardCount) (v : T) : SingleStateArray T :=
  ⟨(i.hash_value, v) :: a.data⟩

end SingleStateArray

/-- Source `Decision` from `lib.rs`. -/
inductive Decision where
  | PlaceHolder
  | Hit
  | Stand
  | Double
  | Surrender
  | Split
  | Insurance
  deriving DecidableEq

/-- Source `DoublePolicy` from `lib.rs`. -/
inductive DoublePolicy where
  | AnyTwo
  | NineTenElevenOnly
  | TenElevenOnly
  deriving DecidableEq

/-- Source `PeekPolicy` from `lib.rs`. -/
inductive PeekPolicy where
  | UpAceOrTen
  | UpAce
  | NoPeek
  deriving DecidableEq

/-- Source `Rule` from `lib.rs`; the `f64` payouts are modelled over `ℚ`. -/
structure Rule where
  number_of_decks : ℕ
  cut_card_proportion : ℚ
  split_all_limits : ℕ
  split_ace_limits : ℕ
  double_policy : DoublePolicy
  dealer_hit_on_soft17 : Bool
  allow_das : Bool
  allow_late_surrender : Bool
  peek_policy : PeekPolicy
  charlie_number : ℕ
  payout_blackjack : ℚ
  payout_insurance : ℚ

/-- Source `InitialSituation` from `lib.rs`. -/
structure InitialSituation where
  shoe : CardCount
  hand_cards : ℕ × ℕ
  dealer_up_card : ℕ

/-- Source `InitialSituation::new` from `lib.rs`; the two `panic!` branches are
modelled by `none`. -/
def InitialSituation.new (shoe : CardCount) (hand : ℕ × ℕ) (dealer_up_card : ℕ) :
    Option InitialSituation :=
  if dealer_up_card = 0 ∨ 10 < dealer_up_card then none
  else if 10 < hand.1 ∨ 10 < hand.2 then none
  else some ⟨shoe, hand, dealer_up_card⟩

/-- Source `f64` expectation values extended with the `-f64::INFINITY` sentinel. -/
inductive EV where
  | negInf
  | fin (q : ℚ)
  deriving DecidableEq

namespace EV

/-- The strict order used by the source's `f64` `<` comparisons
(`-inf < -inf` is false, matching IEEE). -/
def blt : EV → EV → Bool
  | negInf, negInf => false
  | negInf, fin _ => true
  | fin _, negInf => false
  | fin a, fin b => a < b

/-- Non-strict comparison, used only in theorem statements. -/
def ble : EV → EV → Bool
  | negInf, _ => true
  | fin _, negInf => false
  | fin a, fin b => a ≤ b

/-- Addition: `-inf` absorbs, mirroring `f64` addition with a finite term. -/
def add : EV → EV → EV
  | negInf, _ => negInf
  | _, negInf => negInf
  | fin a, fin b => fin (a + b)

/-- Multiplication by a rational probability weight.  (For `p ≠ 0` this is
exactly `f64` semantics; the `p = 0` case with a `-inf` operand would be a
NaN in `f64` and never occurs in any instance evaluated below.) -/
def smul (p : ℚ) : EV → EV
  | negInf => negInf
  | fin a => fin (p * a)

end EV

/-- Source `Expectation` from `calculation.rs`; both fields default to
`-f64::INFINITY`. -/
structure Expectation where
  hit : EV := EV.negInf
  stand : EV := EV.negInf
  deriving DecidableEq

instance : Inhabited Expectation := ⟨{}⟩

/-- The maximization core of `get_max_expectation` (`calculation.rs`,
lines 36–54): start from `(-0.5, Surrender)` when late surrender is
allowed (else `(-inf, PlaceHolder)`), then let stand and hit take over
under strict `<`. -/
def maxStandHitSurrender (rule : Rule) (ex : Expectation) : EV × Decision :=
  let m0 : EV × Decision :=
    if rule.allow_late_surrender then (EV.fin (-(1 : ℚ) / 2), Decision.Surrender)
    else (EV.negInf, Decision.PlaceHolder)
  let m1 : EV × Decision := if m0.1.blt ex.stand then (ex.stand, Decision.Stand) else m0
  if m1.1.blt ex.hit then (ex.hit, Decision.Hit) else m1

/-- Source `get_max_expectation` from `calculation.rs` applied to the solution
entry of a state (for states whose entry is present; the recursion below
always computes a child's entry before consulting it). -/
def getMaxExpectationEntry (ex : Expectation) (state : CardCount) (rule : Rule) :
    EV × Decision :=
  if state.bust then (EV.fin (-1), Decision.Stand)
  else if rule.charlie_number ≤ state.total then (EV.fin 1, Decision.Stand)
  else maxStandHitSurrender rule ex

/-- Source `get_max_expectation` from `calculation.rs` against an explicit
solution table; `solution[state]` panics when the state is absent, which
is modelled by `none`. -/
def getMaxExpectation (solution : SingleStateArray Expectation) (state : CardCount)
    (rule : Rule) : Option (EV × Decision) :=
  if state.bust then some (EV.fin (-1), Decision.Stand)
  else if rule.charlie_number ≤ state.total then some (EV.fin 1, Decision.Stand)
  else (solution.index state).map fun ex => maxStandHitSurrender rule ex

/-- Source `get_card_probability` from `calculation.rs`. -/
def getCardProbability (shoe : CardCount) (impossibleDealerHoleCard targetCard : ℕ) : ℚ :=
  let total : ℚ := shoe.total
  let targetNumber : ℚ := shoe.get targetCard
  if impossibleDealerHoleCard = 0 then targetNumber / total
  else
    let pHoleCardIsTargetCard : ℚ :=
      if impossibleDealerHoleCard = targetCard then 0
      else targetNumber / ((shoe.total - shoe.get impossibleDealerHoleCard : ℕ) : ℚ)
    let shoeTotalMinusOne : ℚ := ((shoe.total - 1 : ℕ) : ℚ)
    let p1 := pHoleCardIsTargetCard * ((shoe.get targetCard - 1 : ℕ) : ℚ) / shoeTotalMinusOne
    let p2 := (1 - pHoleCardIsTargetCard) * targetNumber / shoeTotalMinusOne
    p1 + p2

/-- Source `get_impossible_dealer_hole_card` from `calculation.rs` (the
Rust integer `match` arms are written as equality tests). -/
def getImpossibleDealerHoleCard (rule : Rule) (dealerUpCard : ℕ) : ℕ :=
  match rule.peek_policy with
  | .UpAceOrTen =>
    if dealerUpCard = 1 then 10 else if dealerUpCard = 10 then 1 else 0
  | .UpAce =>
    if dealerUpCard = 1 then 10 else 0
  | .NoPeek => 0

/-- Source `WinLoseCasesOdds` from `calculation.rs`. -/
structure WinLoseCasesOdds where
  win : ℚ := 0
  push : ℚ := 0
  lose : ℚ := 0
  deriving DecidableEq

namespace WinLoseCasesOdds

/-- Source `AddAssign for WinLoseCasesOdds`. -/
def add (a b : WinLoseCasesOdds) : WinLoseCasesOdds :=
  ⟨a.win + b.win, a.push + b.push, a.lose + b.lose⟩

/-- Source `Mul<f64> for WinLoseCasesOdds`. -/
def mul (a : WinLoseCasesOdds) (p : ℚ) : WinLoseCasesOdds :=
  ⟨a.win * p, a.push * p, a.lose * p⟩

instance : Zero WinLoseCasesOdds := ⟨{}⟩

instance : Add WinLoseCasesOdds := ⟨add⟩

instance : AddCommMonoid WinLoseCasesOdds where
  add_assoc a b c := by
    show add (add a b) c = add a (add b c)
    simp only [add, mk.injEq]
    refine ⟨by ring, by ring, by ring⟩
  zero_add a := by
    show add 0 a = a
    simp only [add]
    show mk (0 + a.win) (0 + a.push) (0 + a.lose) = a
    simp
  add_zero a := by
    show add a 0 = a
    simp only [add]
    show mk (a.win + 0) (a.push + 0) (a.lose + 0) = a
    simp
  add_comm a b := by
    show add a b = add b a
    simp only [add, mk.injEq]
    refine ⟨by ring, by ring, by ring⟩
  nsmul := nsmulRec

/-- The total probability mass of an odds record. -/
def mass (a : WinLoseCasesOdds) : ℚ := a.win + a.push + a.lose

end WinLoseCasesOdds

/-- Source `add_to_win_lose_cases_count` from `calculation.rs`. -/
def addToWinLoseCasesCount (playerSum dealerSum : ℕ) (count : WinLoseCasesOdds)
    (delta : ℚ) : WinLoseCasesOdds :=
  match compare playerSum dealerSum with
  | .lt => { count with lose := count.lose + delta }
  | .eq => { count with push := count.push + delta }
  | .gt => { count with win := count.win + delta }

/-- The `(next_card_min, next_card_max, current_valid_shoe_total)` triple of
`memoization_find_win_lose_odds` (`calculation.rs`, lines 763–790). -/
def dealerDrawRange (rule : Rule) (dealerUpCard : ℕ) (originalShoe dealerExtraHand : CardCount) :
    ℕ × ℕ × ℕ :=
  if dealerExtraHand.total ≠ 0 then (1, 10, originalShoe.total - dealerExtraHand.total)
  else
    match rule.peek_policy with
    | .UpAceOrTen =>
      if dealerUpCard = 1 then (1, 9, originalShoe.total - originalShoe.get 10)
      else if dealerUpCard = 10 then (2, 10, originalShoe.total - originalShoe.get 1)
      else (1, 10, originalShoe.total)
    | .UpAce =>
      if dealerUpCard = 1 then (1, 9, originalShoe.total - originalShoe.get 10)
      else (1, 10, originalShoe.total)
    | .NoPeek => (1, 10, originalShoe.total - dealerExtraHand.total)

/-- Source `memoization_find_win_lose_odds` from `calculation.rs` (also
`calculation/stand_odds.rs`), as a pure function of the visited dealer
state: the memo table caches exactly this value for each
`dealer_extra_hand`.  The explicit fuel argument bounds the number of
cards the dealer can still draw; every run of the source corresponds to
fuel `≥ originalShoe.total - dealerExtraHand.total`, and the fuel-0
fallback value is never reached on a non-degenerate shoe. -/
def memoizationFindWinLoseOdds (rule : Rule) (playerSum dealerUpCard : ℕ)
    (originalShoe : CardCount) : ℕ → CardCount → WinLoseCasesOdds
  | fuel, dealerExtraHand =>
    let dealerSum := dealerExtraHand.sum + dealerUpCard
    let isSoft := dealerExtraHand.isSoft || dealerUpCard = 1
    if 21 < dealerSum then { win := 1 }
    else if 17 ≤ dealerSum then addToWinLoseCasesCount playerSum dealerSum 0 1
    else if isSoft && (dealerSum + 10 = 21 && dealerExtraHand.total = 1) then { lose := 1 }
    else if isSoft &&
        ((if rule.dealer_hit_on_soft17 then 18 else 17) ≤ dealerSum + 10 &&
          dealerSum + 10 ≤ 21) then
      addToWinLoseCasesCount playerSum (dealerSum + 10) 0 1
    else
      match fuel with
      | 0 => 0
      | fuel + 1 =>
        let r := dealerDrawRange rule dealerUpCard originalShoe dealerExtraHand
        ∑ card ∈ Finset.Icc r.1 r.2.1,
          if dealerExtraHand.get card = originalShoe.get card then 0
          else
            let nextStateOdds :=
              memoizationFindWinLoseOdds rule playerSum dealerUpCard originalShoe fuel
                (dealerExtraHand.addCard card)
            let p : ℚ :=
              ((originalShoe.get card - dealerExtraHand.get card : ℕ) : ℚ) / (r.2.2 : ℚ)
            nextStateOdds.mul p

/-- Non-degeneracy of a dealer recursion subtree: every non-terminal state
reached from `dealerExtraHand` has a positive valid-draw denominator (and
the fuel suffices to explore it).  This is the precise content of the
spec's "non-degenerate shoe" hypothesis. -/
def dealerOddsNondegenerate (rule : Rule) (dealerUpCard : ℕ) (originalShoe : CardCount) :
    ℕ → CardCount → Bool
  | fuel, dealerExtraHand =>
    let dealerSum := dealerExtraHand.sum + dealerUpCard
    let isSoft := dealerExtraHand.isSoft || dealerUpCard = 1
    if 21 < dealerSum then true
    else if 17 ≤ dealerSum then true
    else if isSoft && (dealerSum + 10 = 21 && dealerExtraHand.total = 1) then true
    else if isSoft &&
        ((if rule.dealer_hit_on_soft17 then 18 else 17) ≤ dealerSum + 10 &&
          dealerSum + 10 ≤ 21) then true
    else
      match fuel with
      | 0 => false
      | fuel + 1 =>
        let r := dealerDrawRange rule dealerUpCard originalShoe dealerExtraHand
        decide (0 < r.2.2) &&
          ∀ card ∈ Finset.Icc r.1 r.2.1,
            dealerExtraHand.get card = originalShoe.get card ∨
              dealerOddsNondegenerate rule dealerUpCard originalShoe fuel
                (dealerExtraHand.addCard card)

/-- Source `p_dealer_also_natural` inside `calculate_stand_odds`
(`calculation.rs`, lines 665–676). -/
def pDealerAlsoNatural (rule : Rule) (dealerUpCard : ℕ) (shoe : CardCount) : ℚ :=
  match rule.peek_policy with
  | .UpAceOrTen => 0
  | .UpAce =>
    if dealerUpCard = 10 then getCardProbability shoe 0 1 else 0
  | .NoPeek =>
    if dealerUpCard = 1 then getCardProbability shoe 0 10
    else if dealerUpCard = 10 then getCardProbability shoe 0 1
    else 0

/-- Source `calculate_stand_odds` from `calculation.rs`. -/
def calculateStandOdds (rule : Rule) (playerHand : CardCount) (dealerUpCard : ℕ)
    (shoe : CardCount) : WinLoseCasesOdds :=
  if playerHand.isNatural then
    let p := pDealerAlsoNatural rule dealerUpCard shoe
    { win := 1 - p, push := p, lose := 0 }
  else
    memoizationFindWinLoseOdds rule playerHand.getActualSum dealerUpCard shoe shoe.total
      (CardCount.new fun _ => 0)

instance : Zero EV := ⟨EV.fin 0⟩

instance : Add EV := ⟨EV.add⟩

instance : AddCommMonoid EV where
  add_assoc a b c := by
    show EV.add (EV.add a b) c = EV.add a (EV.add b c)
    cases a <;> cases b <;> cases c <;> simp [EV.add, add_assoc]
  zero_add a := by
    show EV.add (EV.fin 0) a = a
    cases a <;> simp [EV.add]
  add_zero a := by
    show EV.add a (EV.fin 0) = a
    cases a <;> simp [EV.add]
  add_comm a b := by
    show EV.add a b = EV.add b a
    cases a <;> cases b <;> simp [EV.add, add_comm]
  nsmul := nsmulRec

/-- Source `memoization_calculate_stand_hit_expectation` from `calculation.rs`, as
a pure function of the visited `(shoe, hand)` state: the memo table caches
exactly this value for every hand it visits (the shoe at a visited hand is
determined by the hand, since the recursion moves cards between the two).
The fuel bounds the recursion depth; every run of the source corresponds
to fuel `≥ currentShoe.total`, and the fuel-0 fallback (hit = 0 with no
draws) is unreachable then since the draw loop removes a shoe card per
level. -/
def standHitEx (rule : Rule) (dealerUpCard impossibleDealerHoleCard : ℕ) :
    ℕ → CardCount → CardCount → Expectation
  | fuel, currentShoe, currentHand =>
    if currentHand.bust then { stand := EV.fin (-1) }
    else if currentHand.total = rule.charlie_number then { stand := EV.fin 1 }
    else if currentHand.getActualSum = 21 then
      let standOdds := calculateStandOdds rule currentHand dealerUpCard currentShoe
      { stand :=
          if currentHand.isNatural then
            EV.fin (standOdds.win * rule.payout_blackjack - standOdds.lose)
          else EV.fin (standOdds.win - standOdds.lose) }
    else
      let hit : EV :=
        match fuel with
        | 0 => EV.fin 0
        | fuel + 1 =>
          ∑ i ∈ Finset.Icc 1 10,
            if currentShoe.get i = 0 then 0
            else
              let child :=
                standHitEx rule dealerUpCard impossibleDealerHoleCard fuel
                  (currentShoe.removeCard i) (currentHand.addCard i)
              let exMax := (getMaxExpectationEntry child (currentHand.addCard i) rule).1
              let p := getCardProbability currentShoe impossibleDealerHoleCard i
              EV.smul p exMax
      let stand : EV :=
        if currentHand.getActualSum ≤ 11 ∧ currentHand.total ≠ 3 then EV.negInf
        else
          let standOdds := calculateStandOdds rule currentHand dealerUpCard currentShoe
          EV.fin (standOdds.win - standOdds.lose)
      { hit := hit, stand := stand }

/-- Modelled from the spec (the claim under test): the same stand/hit
recursion, but with the surrender option removed from the valuation of the
one-card-larger hand states inside the hit computation — children are
valued at `max(stand, hit)` only, never at the surrender constant.  Used
solely to compare against `standHitEx`. -/
def standHitExNoRecursiveSurrender (rule : Rule) (dealerUpCard impossibleDealerHoleCard : ℕ) :
    ℕ → CardCount → CardCount → Expectation
  | fuel, currentShoe, currentHand =>
    if currentHand.bust then { stand := EV.fin (-1) }
    else if currentHand.total = rule.charlie_number then { stand := EV.fin 1 }
    else if currentHand.getActualSum = 21 then
      let standOdds := calculateStandOdds rule currentHand dealerUpCard currentShoe
      { stand :=
          if currentHand.isNatural then
            EV.fin (standOdds.win * rule.payout_blackjack - standOdds.lose)
          else EV.fin (standOdds.win - standOdds.lose) }
    else
      let hit : EV :=
        match fuel with
        | 0 => EV.fin 0
        | fuel + 1 =>
          ∑ i ∈ Finset.Icc 1 10,
            if currentShoe.get i = 0 then 0
            else
              let child :=
                standHitExNoRecursiveSurrender rule dealerUpCard impossibleDealerHoleCard fuel
                  (currentShoe.removeCard i) (currentHand.addCard i)
              let exMax :=
                (getMaxExpectationEntry child (currentHand.addCard i)
                    { rule with allow_late_surrender := false }).1
              let p := getCardProbability currentShoe impossibleDealerHoleCard i
              EV.smul p exMax
      let stand : EV :=
        if currentHand.getActualSum ≤ 11 ∧ currentHand.total ≠ 3 then EV.negInf
        else
          let standOdds := calculateStandOdds rule currentHand dealerUpCard currentShoe
          EV.fin (standOdds.win - standOdds.lose)
      { hit := hit, stand := stand }

/-- Source `ExpectationAll` from `calculation2.rs`. -/
structure ExpectationAll where
  hit : EV := EV.negInf
  stand : EV := EV.negInf
  double : EV := EV.negInf
  surrender : EV := EV.negInf
  split : EV := EV.negInf
  insurance : EV := EV.negInf
  summary : EV := EV.negInf
  decision : Decision := Decision.PlaceHolder
  deriving DecidableEq

/-- Source `ExpectationAll::get_max_expectation` from `calculation2.rs`: starts
from `(hit, Hit)`, then stand, double, surrender and split take over under
strict `<`. -/
def ExpectationAll.getMaxExpectation (e : ExpectationAll) : EV × Decision :=
  let m0 : EV × Decision := (e.hit, Decision.Hit)
  let m1 : EV × Decision := if m0.1.blt e.stand then (e.stand, Decision.Stand) else m0
  let m2 : EV × Decision := if m1.1.blt e.double then (e.double, Decision.Double) else m1
  let m3 : EV × Decision := if m2.1.blt e.surrender then (e.surrender, Decision.Surrender) else m2
  if m3.1.blt e.split then (e.split, Decision.Split) else m3

/-- Source `ExpectationAfterSplit::get_max_expectation` from
`calculation/split_ex.rs` (the trait's default method), parameterized by
the `ALLOW_DAS` / `ALLOW_LATE_SURRENDER` associated constants and the four
getter values (a getter of an absent field returns `-f64::INFINITY`, per
the derive macro in `blackjack_macros`). -/
def expectationAfterSplitGetMax (allowDas allowLateSurrender : Bool)
    (stand hit double surrender : EV) : EV × Decision :=
  let m0 : EV × Decision := (stand, Decision.Stand)
  let m1 : EV × Decision := if m0.1.blt hit then (hit, Decision.Hit) else m0
  let m2 : EV × Decision :=
    if allowDas then (if m1.1.blt double then (double, Decision.Double) else m1) else m1
  if allowLateSurrender then
    (if m2.1.blt surrender then (surrender, Decision.Surrender) else m2)
  else m2

/-- The nested enumeration of
`calculate_solution_without_initial_situation` (`calculation.rs`,
lines 226–262), restricted to the combinatorial weight numerators: for
every (dealer up-card, first player card, second player card ≤ first)
combination, the ordered-draw count `combs` accumulated exactly as the
source does (multiplying the running shoe's counts while the dealt cards
are removed, doubling when the two player cards differ).  All `u32`
products are reduced `% 2 ^ 32` as the source's release-mode arithmetic
would. -/
def bettingCombsSum (shoe : CardCount) : ℕ :=
  ∑ dealerUpCard ∈ Finset.Icc 1 10,
    let combs0 := shoe.get dealerUpCard
    let shoe0 := shoe.removeCard dealerUpCard
    ∑ firstHandCard ∈ Finset.Icc 1 10,
      let combs1 := combs0 * shoe0.get firstHandCard % 2 ^ 32
      let shoe1 := shoe0.removeCard firstHandCard
      ∑ secondHandCard ∈ Finset.Icc 1 firstHandCard,
        let combs2 := combs1 * shoe1.get secondHandCard % 2 ^ 32
        if secondHandCard ≠ firstHandCard then combs2 * 2 % 2 ^ 32 else combs2

/-- Source `total_combs` from `calculate_solution_without_initial_situation`
(`calculation.rs`, lines 222–224), in `u32` arithmetic. -/
def bettingTotalCombs (numberOfDecks : ℕ) : ℕ :=
  let t := numberOfDecks * 52 % 2 ^ 32
  t * (t - 1) % 2 ^ 32 * (t - 2) % 2 ^ 32

/-- The sum of the per-combination weights `p = combs as f64 / total_combs`
assigned by `calculate_solution_without_initial_situation`. -/
def bettingWeightSum (numberOfDecks : ℕ) (shoe : CardCount) : ℚ :=
  ∑ dealerUpCard ∈ Finset.Icc 1 10,
    let combs0 := shoe.get dealerUpCard
    let shoe0 := shoe.removeCard dealerUpCard
    ∑ firstHandCard ∈ Finset.Icc 1 10,
      let combs1 := combs0 * shoe0.get firstHandCard % 2 ^ 32
      let shoe1 := shoe0.removeCard firstHandCard
      ∑ secondHandCard ∈ Finset.Icc 1 firstHandCard,
        let combs2 : ℕ := combs1 * shoe1.get secondHandCard % 2 ^ 32
        let combs3 : ℕ := if secondHandCard ≠ firstHandCard then combs2 * 2 % 2 ^ 32 else combs2
        (combs3 : ℚ) / (bettingTotalCombs numberOfDecks : ℚ)

/-- One `add_card`/`remove_card` mutation. -/
inductive CardOp where
  | add (cardValue : ℕ)
  | remove (cardValue : ℕ)
  deriving DecidableEq

/-- Apply a sequence of mutations to a `CardCount` (front of the list
first). -/
def applyCardOps (cc : CardCount) : List CardOp → CardCount
  | [] => cc
  | .add v :: ops => applyCardOps (cc.addCard v) ops
  | .remove v :: ops => applyCardOps (cc.removeCard v) ops

/-- A mutation sequence is valid from `cc` when every card value is in
1..=10 and no removal is applied to a zero count (the source's `u16`
counters would underflow there). -/
def validCardOps (cc : CardCount) : List CardOp → Prop
  | [] => True
  | .add v :: ops => 1 ≤ v ∧ v ≤ 10 ∧ validCardOps (cc.addCard v) ops
  | .remove v :: ops =>
    1 ≤ v ∧ v ≤ 10 ∧ 0 < cc.counts (CardCount.idx v) ∧ validCardOps (cc.removeCard v) ops

/-- Balanced base-`BASE` digit extraction: peel `steps` digits off `x`,
requiring each digit to lie in `[-bnd, bnd]` (represented by the residue
branch taken), and return the remaining top part.  Returns `none` when
some digit is out of range. -/
def balancedDigitsRemainder (bnd : ℕ) : ℕ → ℕ → Option ℕ
  | 0, x => some x
  | steps + 1, x =>
    let r := x % BASE
    if r ≤ bnd then balancedDigitsRemainder bnd steps (x / BASE)
    else if BASE - bnd ≤ r then balancedDigitsRemainder bnd steps (x / BASE + 1)
    else none

/-- Whether `k * MOD` is expressible as `Σ d i * BASE ^ i + t * BASE ^ 9`
with `|d i| ≤ bnd9` and `0 ≤ t ≤ bnd10` — i.e. whether the multiple
`k * MOD` of the prime witnesses a fingerprint collision between two count
vectors within the bounds `bnd9` (values 1..=9) and `bnd10` (value 10). -/
def kCollides (bnd9 bnd10 k : ℕ) : Bool :=
  match balancedDigitsRemainder bnd9 9 (k * MOD) with
  | none => false
  | some t => t ≤ bnd10

/-- Divide-and-conquer check that no `k` in `[lo, hi)` collides (the fuel
keeps the recursion structural and logarithmically deep, so that kernel
reduction does not blow the stack). -/
def noCollisionRange (bnd9 bnd10 : ℕ) : ℕ → ℕ → ℕ → Bool
  | 0, lo, hi => hi ≤ lo
  | fuel + 1, lo, hi =>
    if hi ≤ lo then true
    else if hi = lo + 1 then !kCollides bnd9 bnd10 lo
    else
      noCollisionRange bnd9 bnd10 fuel lo ((lo + hi) / 2) &&
        noCollisionRange bnd9 bnd10 fuel ((lo + hi) / 2) hi

/-- A concrete rule used by witnesses: no peeking, late surrender allowed. -/
def ruleSurrenderNoPeek : Rule where
  number_of_decks := 1
  cut_card_proportion := 1 / 2
  split_all_limits := 1
  split_ace_limits := 1
  double_policy := .AnyTwo
  dealer_hit_on_soft17 := false
  allow_das := false
  allow_late_surrender := true
  peek_policy := .NoPeek
  charlie_number := 6
  payout_blackjack := 3 / 2
  payout_insurance := 2

/-- A concrete rule used by witnesses: peek on ace or ten (so a dealer
natural never reaches the stand computation), Charlie number 6. -/
def ruleUpAceOrTen : Rule where
  number_of_decks := 8
  cut_card_proportion := 1 / 2
  split_all_limits := 1
  split_ace_limits := 1
  double_policy := .AnyTwo
  dealer_hit_on_soft17 := false
  allow_das := false
  allow_late_surrender := false
  peek_policy := .UpAceOrTen
  charlie_number := 6
  payout_blackjack := 3 / 2
  payout_insurance := 2

/-- Source `ruleUpAceOrTen` with the degenerate Charlie number 2. -/
def ruleUpAceOrTenCharlie2 : Rule :=
  { ruleUpAceOrTen with charlie_number := 2 }

/-- Concrete empty hand. -/
def zeroHand : CardCount := CardCount.new fun _ => 0

/-- Concrete shoe holding three ten-valued cards. -/
def shoeThreeTens : CardCount := CardCount.new ![0, 0, 0, 0, 0, 0, 0, 0, 0, 3]

/-- Concrete shoe holding one ten-valued card. -/
def shoeOneTen : CardCount := CardCount.new ![0, 0, 0, 0, 0, 0, 0, 0, 0, 1]

/-- Concrete hand 2+3, built by the source's mutation path. -/
def handTwoThree : CardCount := (zeroHand.addCard 2).addCard 3

/-- Concrete natural blackjack hand (one ace, one ten). -/
def naturalHand : CardCount := CardCount.new ![1, 0, 0, 0, 0, 0, 0, 0, 0, 1]

/-- First component of a fingerprint collision within 8-deck bounds. -/
def collisionCountsA : Fin 10 → ℕ := ![26, 0, 16, 11, 0, 4, 9, 19, 0, 44]

/-- Second component of a fingerprint collision within 8-deck bounds. -/
def collisionCountsB : Fin 10 → ℕ := ![0, 9, 0, 0, 11, 0, 0, 0, 22, 0]

/-- Per-rank count bound for a six-deck shoe (4 per deck for ranks 1..=9,
16 tens per deck, as in with_number_of_decks). -/
def sixDeckBound (i : Fin 10) : ℕ := if i.val = 9 then 96 else 24

/-- Per-rank count bound for an eight-deck shoe. -/
def eightDeckBound (i : Fin 10) : ℕ := if i.val = 9 then 128 else 32


/-!
## Theorems
-/

theorem cardCount_new_wf (counts : Fin 10 → ℕ) : (CardCount.new counts).wf :=
  ⟨rfl, rfl, rfl⟩

theorem ev_blt_eq_false_of_ble {x y : EV} (h : x.ble y = true) : y.blt x = false := by
  cases x <;> cases y <;> simp_all [EV.ble, EV.blt] <;> linarith

/-- Claim C1 (counterexample): on a hit/stand tie, the all-decisions query
`ExpectationAll::get_max_expectation` returns `Hit`, not the claimed
first-listed action `Stand`: with `hit = stand = 0` (all other
expectations `-inf`) it returns `(0, Hit)`. -/
theorem C1_counterexample :
    ExpectationAll.getMaxExpectation { hit := EV.fin 0, stand := EV.fin 0 }
        = (EV.fin 0, Decision.Hit) ∧
      Decision.Hit ≠ Decision.Stand := by
  with_unfolding_all decide

/-- Claim C1 (amended): ties are broken toward the action assigned first in
each routine.  (1) In `get_max_expectation` (`calculation.rs`), with late
surrender allowed, any state whose stand and hit values are `≤ -0.5`
resolves to `(-0.5, Surrender)` — so a stand/surrender tie at `-0.5`
returns `Surrender`, not `Stand`.  (2) There, a hit/stand tie (with stand
above the `-0.5` floor) returns `Stand`, as claimed.  (3) In
`ExpectationAll::get_max_expectation` (`calculation2.rs`) the priority
order is hit, stand, double, surrender, split: anything tying with hit
loses to `Hit`.  (4) In `ExpectationAfterSplit::get_max_expectation`
(`calculation/split_ex.rs`) the order is stand, hit, double, surrender, as
the claim lists. -/
theorem C1_amended :
    (∀ (rule : Rule) (ex : Expectation) (state : CardCount),
        rule.allow_late_surrender = true → state.bust = false →
        state.total < rule.charlie_number →
        ex.stand.ble (EV.fin (-(1 : ℚ) / 2)) = true →
        ex.hit.ble (EV.fin (-(1 : ℚ) / 2)) = true →
        getMaxExpectationEntry ex state rule = (EV.fin (-(1 : ℚ) / 2), Decision.Surrender)) ∧
      (∀ (rule : Rule) (ex : Expectation) (state : CardCount),
        rule.allow_late_surrender = true → state.bust = false →
        state.total < rule.charlie_number →
        (EV.fin (-(1 : ℚ) / 2)).blt ex.stand = true → ex.hit.ble ex.stand = true →
        getMaxExpectationEntry ex state rule = (ex.stand, Decision.Stand)) ∧
      (∀ e : ExpectationAll,
        e.stand.ble e.hit = true → e.double.ble e.hit = true → e.surrender.ble e.hit = true →
        e.split.ble e.hit = true →
        e.getMaxExpectation = (e.hit, Decision.Hit)) ∧
      (∀ (allowDas allowLateSurrender : Bool) (stand hit double surrender : EV),
        hit.ble stand = true → double.ble stand = true → surrender.ble stand = true →
        expectationAfterSplitGetMax allowDas allowLateSurrender stand hit double surrender
          = (stand, Decision.Stand)) := by
  refine ⟨?_, ?_, ?_, ?_⟩
  · intro rule ex state hSur hBust hTotal hStand hHit
    simp only [getMaxExpectationEntry, hBust, Bool.false_eq_true, if_false,
      maxStandHitSurrender, hSur, if_true]
    rw [if_neg (by omega)]
    simp [ev_blt_eq_false_of_ble hStand, ev_blt_eq_false_of_ble hHit]
  · intro rule ex state hSur hBust hTotal hStand hHit
    simp only [getMaxExpectationEntry, hBust, Bool.false_eq_true, if_false,
      maxStandHitSurrender, hSur, if_true]
    rw [if_neg (by omega)]
    simp [hStand, ev_blt_eq_false_of_ble hHit]
  · intro e h1 h2 h3 h4
    simp [ExpectationAll.getMaxExpectation, ev_blt_eq_false_of_ble h1,
      ev_blt_eq_false_of_ble h2, ev_blt_eq_false_of_ble h3, ev_blt_eq_false_of_ble h4]
  · intro das surr stand hit double surrender h1 h2 h3
    cases das <;> cases surr <;>
      simp [expectationAfterSplitGetMax, ev_blt_eq_false_of_ble h1,
        ev_blt_eq_false_of_ble h2, ev_blt_eq_false_of_ble h3]

/-- Witness for C1 (amended) at concrete inputs. -/
theorem C1_amended_witness :
    getMaxExpectationEntry { stand := EV.fin (-(1 : ℚ) / 2), hit := EV.negInf } handTwoThree
        ruleSurrenderNoPeek = (EV.fin (-(1 : ℚ) / 2), Decision.Surrender) ∧
      ExpectationAll.getMaxExpectation { hit := EV.fin 0, stand := EV.fin 0 }
        = (EV.fin 0, Decision.Hit) ∧
      expectationAfterSplitGetMax true true (EV.fin 1) (EV.fin 1) (EV.fin 1) (EV.fin 1)
        = (EV.fin 1, Decision.Stand) :=
  ⟨C1_amended.1 ruleSurrenderNoPeek _ handTwoThree rfl (by with_unfolding_all decide)
      (by with_unfolding_all decide) (by with_unfolding_all decide)
      (by with_unfolding_all decide),
    C1_amended.2.2.1 _ (by with_unfolding_all decide) (by with_unfolding_all decide)
      (by with_unfolding_all decide) (by with_unfolding_all decide),
    C1_amended.2.2.2 true true (EV.fin 1) (EV.fin 1) (EV.fin 1) (EV.fin 1)
      (by with_unfolding_all decide) (by with_unfolding_all decide)
      (by with_unfolding_all decide)⟩

/-- Claim C9 (counterexample): a hand card of 0 lies outside 1..10, yet
`InitialSituation::new` does not abort — it accepts it (0 encodes an
unknown hand card) and returns the situation. -/
theorem C9_counterexample :
    InitialSituation.new zeroHand (0, 5) 10 = some ⟨zeroHand, (0, 5), 10⟩ := by
  norm_num [InitialSituation.new]

/-- Claim C9 (amended): `InitialSituation::new` panics exactly when the
dealer up-card is outside 1..=10 or a hand card exceeds 10 (hand cards may
be 0, encoding "unknown"); otherwise it returns a situation holding
exactly the given shoe, hand cards and up-card. -/
theorem C9_amended (shoe : CardCount) (hand : ℕ × ℕ) (up : ℕ) :
    (InitialSituation.new shoe hand up = none ↔
      up = 0 ∨ 10 < up ∨ 10 < hand.1 ∨ 10 < hand.2) ∧
      (up ≠ 0 → up ≤ 10 → hand.1 ≤ 10 → hand.2 ≤ 10 →
        InitialSituation.new shoe hand up = some ⟨shoe, hand, up⟩) := by
  unfold InitialSituation.new
  split_ifs with h1 h2 <;> simp_all <;> omega

/-- Witness for C9 (amended). -/
theorem C9_amended_witness :
    InitialSituation.new zeroHand (1, 2) 10 = some ⟨zeroHand, (1, 2), 10⟩ :=
  (C9_amended zeroHand (1, 2) 10).2 (by norm_num) (by norm_num) (by norm_num) (by norm_num)

/-- Claim C10: reading an absent state through `Index` panics (`none`);
`get_max_expectation` therefore panics on a non-bust, below-Charlie hand
that is absent from the solution table; mutable indexing inserts the
default value, after which `contains_state` returns `true` (and the stored
value is the default). -/
theorem C10_thm :
    (∀ (T : Type) (a : SingleStateArray T) (cc : CardCount),
        a.containsState cc = false → a.index cc = none) ∧
      (∀ (rule : Rule) (sol : SingleStateArray Expectation) (state : CardCount),
        state.bust = false → state.total < rule.charlie_number →
        sol.containsState state = false → getMaxExpectation sol state rule = none) ∧
      (∀ (T : Type) (inst : Inhabited T) (a : SingleStateArray T) (cc : CardCount),
        (a.indexMutTouch cc).containsState cc = true) ∧
      (∀ (T : Type) (inst : Inhabited T) (a : SingleStateArray T) (cc : CardCount),
        a.containsState cc = false → (a.indexMutTouch cc).index cc = some default) := by
  have lookupNone : ∀ (T : Type) (a : SingleStateArray T) (cc : CardCount),
      a.containsState cc = false → a.data.lookup cc.hash_value = none := by
    intro T a cc h
    unfold SingleStateArray.containsState at h
    cases hl : a.data.lookup cc.hash_value with
    | none => rfl
    | some v => rw [hl] at h; simp at h
  have lookupConsSelf : ∀ (T : Type) (v : T) (l : List (ℕ × T)) (k : ℕ),
      List.lookup k ((k, v) :: l) = some v := by
    intro T v l k
    simp [List.lookup]
  refine ⟨?_, ?_, ?_, ?_⟩
  · intro T a cc h
    exact lookupNone T a cc h
  · intro rule sol state hBust hTotal hAbsent
    have hIdx : sol.index state = none := lookupNone _ sol state hAbsent
    simp only [getMaxExpectation, hBust, Bool.false_eq_true, if_false, hIdx]
    rw [if_neg (by omega)]
    rfl
  · intro T inst a cc
    unfold SingleStateArray.indexMutTouch SingleStateArray.containsState
    split_ifs with h
    · exact h
    · show (List.lookup cc.hash_value ((cc.hash_value, (default : T)) :: a.data)).isSome = true
      rw [lookupConsSelf]
      rfl
  · intro T inst a cc h
    unfold SingleStateArray.indexMutTouch SingleStateArray.index
    rw [if_neg (by rw [lookupNone T a cc h]; simp)]
    exact lookupConsSelf T default a.data cc.hash_value

/-- Witness for C10 at concrete inputs. -/
theorem C10_witness :
    SingleStateArray.index (T := Expectation) SingleStateArray.new handTwoThree = none ∧
      getMaxExpectation SingleStateArray.new handTwoThree ruleSurrenderNoPeek = none ∧
      (SingleStateArray.indexMutTouch (T := Expectation)
          SingleStateArray.new handTwoThree).containsState handTwoThree = true ∧
      (SingleStateArray.indexMutTouch (T := Expectation)
          SingleStateArray.new handTwoThree).index handTwoThree = some default :=
  ⟨C10_thm.1 Expectation SingleStateArray.new handTwoThree rfl,
    C10_thm.2.1 ruleSurrenderNoPeek SingleStateArray.new handTwoThree
      (by with_unfolding_all decide) (by with_unfolding_all decide) rfl,
    C10_thm.2.2.1 Expectation inferInstance SingleStateArray.new handTwoThree,
    C10_thm.2.2.2 Expectation inferInstance SingleStateArray.new handTwoThree rfl⟩

theorem powBase_lt (n : ℕ) : powBase n < MOD := by
  cases n with
  | zero => decide
  | succ m => exact Nat.mod_lt _ (by decide)

theorem idx_val {v : ℕ} (h1 : 1 ≤ v) (h10 : v ≤ 10) : (CardCount.idx v).val = v - 1 := by
  unfold CardCount.idx
  simp only
  omega

theorem scratchHash_lt (counts : Fin 10 → ℕ) : CardCount.scratchHash counts < MOD :=
  Nat.mod_lt _ (by decide)

theorem mod_roundtrip_sub (x p : ℕ) (hp : p ≤ MOD) :
    ((x + p) % MOD + MOD - p) % MOD = x % MOD := by
  have h1 : (x + p) % MOD + MOD - p = (x + p) % MOD + (MOD - p) := by omega
  rw [h1, Nat.mod_add_mod]
  have h2 : x + p + (MOD - p) = x + MOD := by omega
  rw [h2, Nat.add_mod_right]

theorem sum_update_weighted (f : Fin 10 → ℕ) (j : Fin 10) (a : ℕ) (w : Fin 10 → ℕ) :
    ∑ i : Fin 10, Function.update f j a i * w i
      = a * w j + ∑ i ∈ Finset.univ.erase j, f i * w i := by
  rw [← Finset.add_sum_erase _ (fun i => Function.update f j a i * w i) (Finset.mem_univ j)]
  congr 1
  · rw [Function.update_same]
  · refine Finset.sum_congr rfl fun i hi => ?_
    rw [Function.update_noteq (Finset.ne_of_mem_erase hi)]

theorem sum_split_weighted (f : Fin 10 → ℕ) (j : Fin 10) (w : Fin 10 → ℕ) :
    ∑ i : Fin 10, f i * w i = f j * w j + ∑ i ∈ Finset.univ.erase j, f i * w i :=
  (Finset.add_sum_erase _ _ (Finset.mem_univ j)).symm

theorem sum_update_plain (f : Fin 10 → ℕ) (j : Fin 10) (a : ℕ) :
    ∑ i : Fin 10, Function.update f j a i = a + ∑ i ∈ Finset.univ.erase j, f i := by
  have h := sum_update_weighted f j a fun _ => 1
  simpa using h

theorem sum_split_plain (f : Fin 10 → ℕ) (j : Fin 10) :
    ∑ i : Fin 10, f i = f j + ∑ i ∈ Finset.univ.erase j, f i :=
  (Finset.add_sum_erase _ _ (Finset.mem_univ j)).symm

theorem addCard_wf {cc : CardCount} {v : ℕ} (hwf : cc.wf) (h1 : 1 ≤ v) (h10 : v ≤ 10) :
    (cc.addCard v).wf := by
  obtain ⟨hh, hs, ht⟩ := hwf
  have hjv : (CardCount.idx v).val + 1 = v := by rw [idx_val h1 h10]; omega
  simp only [CardCount.wf, CardCount.addCard, CardCount.scratchHash]
  refine ⟨?_, ?_, ?_⟩
  · rw [hh]
    unfold CardCount.scratchHash
    rw [Nat.mod_add_mod]
    congr 1
    rw [sum_update_weighted (w := fun i => powBase i.val),
      sum_split_weighted cc.counts (CardCount.idx v) (fun i => powBase i.val)]
    ring
  · have hcomm : ∀ g : Fin 10 → ℕ, ∑ i : Fin 10, (i.val + 1) * g i
        = ∑ i : Fin 10, g i * (i.val + 1) := by
      intro g; exact Finset.sum_congr rfl fun i _ => Nat.mul_comm _ _
    rw [hcomm, sum_update_weighted (w := fun i => i.val + 1)]
    rw [hs, hcomm, sum_split_weighted cc.counts (CardCount.idx v) (fun i => i.val + 1)]
    simp only [hjv]
    ring
  · rw [sum_update_plain, ht, sum_split_plain cc.counts (CardCount.idx v)]
    ring

theorem removeCard_wf {cc : CardCount} {v : ℕ} (hwf : cc.wf) (h1 : 1 ≤ v) (h10 : v ≤ 10)
    (hpos : 0 < cc.counts (CardCount.idx v)) : (cc.removeCard v).wf := by
  obtain ⟨hh, hs, ht⟩ := hwf
  have hjv : (CardCount.idx v).val + 1 = v := by rw [idx_val h1 h10]; omega
  simp only [CardCount.wf, CardCount.removeCard, CardCount.scratchHash]
  refine ⟨?_, ?_, ?_⟩
  · rw [hh]
    unfold CardCount.scratchHash
    have key : ∑ i : Fin 10, cc.counts i * powBase i.val
        = (∑ i : Fin 10, Function.update cc.counts (CardCount.idx v)
            (cc.counts (CardCount.idx v) - 1) i * powBase i.val)
          + powBase (CardCount.idx v).val := by
      rw [sum_update_weighted (w := fun i => powBase i.val),
        sum_split_weighted cc.counts (CardCount.idx v) (fun i => powBase i.val)]
      have hstep : (cc.counts (CardCount.idx v) - 1) * powBase (CardCount.idx v).val
            + powBase (CardCount.idx v).val
          = cc.counts (CardCount.idx v) * powBase (CardCount.idx v).val := by
        cases hc : cc.counts (CardCount.idx v) with
        | zero => rw [hc] at hpos; omega
        | succ m => simp [Nat.succ_mul]
      omega
    rw [show (∑ i : Fin 10, cc.counts i * powBase i.val) % MOD
        = ((∑ i : Fin 10, Function.update cc.counts (CardCount.idx v)
              (cc.counts (CardCount.idx v) - 1) i * powBase i.val)
            + powBase (CardCount.idx v).val) % MOD from by rw [← key]]
    exact mod_roundtrip_sub _ _ (Nat.le_of_lt (powBase_lt _))
  · have hcomm : ∀ g : Fin 10 → ℕ, ∑ i : Fin 10, (i.val + 1) * g i
        = ∑ i : Fin 10, g i * (i.val + 1) := by
      intro g; exact Finset.sum_congr rfl fun i _ => Nat.mul_comm _ _
    rw [hcomm, sum_update_weighted (w := fun i => i.val + 1)]
    rw [hs, hcomm, sum_split_weighted cc.counts (CardCount.idx v) (fun i => i.val + 1)]
    simp only [hjv]
    have hexp : (cc.counts (CardCount.idx v) - 1) * v + v = cc.counts (CardCount.idx v) * v := by
      cases hc : cc.counts (CardCount.idx v) with
      | zero => rw [hc] at hpos; omega
      | succ m => simp [Nat.succ_mul]
    omega
  · rw [sum_update_plain, ht, sum_split_plain cc.counts (CardCount.idx v)]
    omega

/-- Claim C5: adding then removing the same card value restores the state
exactly (counts, fingerprint, sum, total); and along any valid sequence of
`add_card`/`remove_card` mutations the incrementally maintained
fingerprint (together with the sum and total) always equals the value
recomputed from scratch from the current counts (`CardCount.wf`). -/
theorem C5_thm :
    (∀ (cc : CardCount) (v : ℕ), cc.wf → 1 ≤ v → v ≤ 10 →
        (cc.addCard v).removeCard v = cc) ∧
      (∀ (cc : CardCount) (ops : List CardOp), cc.wf → validCardOps cc ops →
        (applyCardOps cc ops).wf) := by
  constructor
  · intro cc v hwf h1 h10
    obtain ⟨hh, hs, ht⟩ := hwf
    cases cc with
    | mk counts hash_value sum total =>
      simp only [CardCount.addCard, CardCount.removeCard, CardCount.mk.injEq]
      refine ⟨?_, ?_, by omega, by omega⟩
      · rw [Function.update_same, Function.update_idem, Nat.add_sub_cancel,
          Function.update_eq_self]
      · simp only at hh
        rw [hh]
        have := scratchHash_lt counts
        rw [mod_roundtrip_sub _ _ (Nat.le_of_lt (powBase_lt _))]
        exact Nat.mod_eq_of_lt this
  · intro cc ops
    induction ops generalizing cc with
    | nil => intro hwf _; exact hwf
    | cons op rest ih =>
      cases op with
      | add v =>
        intro hwf hvalid
        obtain ⟨h1, h10, hrest⟩ := hvalid
        exact ih (cc.addCard v) (addCard_wf hwf h1 h10) hrest
      | remove v =>
        intro hwf hvalid
        obtain ⟨h1, h10, hpos, hrest⟩ := hvalid
        exact ih (cc.removeCard v) (removeCard_wf hwf h1 h10 hpos) hrest

/-- Witness for C5 at concrete inputs. -/
theorem C5_witness :
    (handTwoThree.addCard 5).removeCard 5 = handTwoThree ∧
      (applyCardOps shoeThreeTens [CardOp.add 3, CardOp.remove 3, CardOp.add 10]).wf :=
  ⟨C5_thm.1 handTwoThree 5 (by with_unfolding_all decide) (by norm_num) (by norm_num),
    C5_thm.2 shoeThreeTens [CardOp.add 3, CardOp.remove 3, CardOp.add 10]
      (by with_unfolding_all decide)
      ⟨by norm_num, by norm_num,
        ⟨by norm_num, by norm_num, by with_unfolding_all decide,
          ⟨by norm_num, by norm_num, trivial⟩⟩⟩⟩

theorem lor_two_pow_mul (n : ℕ) : ∀ a b : ℕ, a < 2 ^ n → a ||| 2 ^ n * b = a + 2 ^ n * b := by
  induction n with
  | zero =>
    intro a b ha
    obtain rfl : a = 0 := by omega
    simp
  | succ n ih =>
    intro a b ha
    have h1 : 2 ^ (n + 1) * b = Nat.bit false (2 ^ n * b) := by
      rw [Nat.bit_val]
      simp [Nat.pow_succ]
      ring
    have ha' : a.div2 < 2 ^ n := by
      rw [← Nat.bit_decomp a] at ha
      simpa using ha
    conv_lhs => rw [← Nat.bit_decomp a]
    rw [h1, Nat.lor_bit, ih a.div2 b ha', Bool.or_false]
    conv_rhs => rw [← Nat.bit_decomp a]
    simp only [Nat.bit_val, Bool.toNat_false]
    ring

theorem handStateVal_lt (mul0 : HandState) : HandState.val mul0 < 4 := by
  cases mul0 <;> decide

theorem doubleCardCountIndex_pack (hand0 hand1 : CardCount) (mul0 : HandState)
    (h0 : hand0.hash_value < 2 ^ 62) (h1 : hand1.hash_value < 2 ^ 62) :
    doubleCardCountIndex hand0 mul0 hand1
      = hand0.hash_value + 2 ^ 62 * HandState.val mul0 + 2 ^ 64 * hand1.hash_value := by
  have hm := handStateVal_lt mul0
  unfold doubleCardCountIndex
  rw [Nat.shiftLeft_eq, Nat.shiftLeft_eq,
    Nat.mul_comm (HandState.val mul0) (2 ^ 62), Nat.mul_comm hand1.hash_value (2 ^ 64),
    lor_two_pow_mul 62 _ _ h0,
    lor_two_pow_mul 64 _ _ (by omega)]
  exact Nat.mod_eq_of_lt (by omega)

/-- Claim C6: the paired-state key packs the two fingerprints and the 2-bit
tag into disjoint bit ranges of the 128-bit integer, so it is injective
over `(hand0 key, tag, hand1 key)` whenever both fingerprints are below
`2 ^ 62` (which every maintained fingerprint is, being reduced modulo the
62-bit prime). -/
theorem C6_thm (hand0 hand1 hand0' hand1' : CardCount) (mul0 mul0' : HandState)
    (h0 : hand0.hash_value < 2 ^ 62) (h1 : hand1.hash_value < 2 ^ 62)
    (h0' : hand0'.hash_value < 2 ^ 62) (h1' : hand1'.hash_value < 2 ^ 62)
    (heq : doubleCardCountIndex hand0 mul0 hand1 = doubleCardCountIndex hand0' mul0' hand1') :
    hand0.hash_value = hand0'.hash_value ∧ mul0 = mul0' ∧
      hand1.hash_value = hand1'.hash_value := by
  rw [doubleCardCountIndex_pack hand0 hand1 mul0 h0 h1,
    doubleCardCountIndex_pack hand0' hand1' mul0' h0' h1'] at heq
  have hm := handStateVal_lt mul0
  have hm' := handStateVal_lt mul0'
  have hcomp : hand0.hash_value = hand0'.hash_value ∧
      HandState.val mul0 = HandState.val mul0' ∧
      hand1.hash_value = hand1'.hash_value := by
    refine ⟨by omega, by omega, by omega⟩
  refine ⟨hcomp.1, ?_, hcomp.2.2⟩
  have hv := hcomp.2.1
  cases mul0 <;> cases mul0' <;> simp_all [HandState.val]

/-- Witness for C6 at concrete inputs. -/
theorem C6_witness :
    handTwoThree.hash_value = handTwoThree.hash_value ∧
      HandState.Normal = HandState.Normal ∧
      shoeThreeTens.hash_value = shoeThreeTens.hash_value :=
  C6_thm handTwoThree shoeThreeTens handTwoThree shoeThreeTens HandState.Normal HandState.Normal
    (by with_unfolding_all decide) (by with_unfolding_all decide)
    (by with_unfolding_all decide) (by with_unfolding_all decide) rfl

theorem ev_ble_refl (x : EV) : x.ble x = true := by
  cases x <;> simp [EV.ble]

theorem ev_ble_of_blt {x y : EV} (h : x.blt y = true) : x.ble y = true := by
  cases x <;> cases y <;> simp_all [EV.ble, EV.blt] <;> linarith

theorem ev_ble_blt_trans {x y z : EV} (h1 : x.ble y = true) (h2 : y.blt z = true) :
    x.ble z = true := by
  cases x <;> cases y <;> cases z <;> simp_all [EV.ble, EV.blt] <;> linarith

/-- Claim C2 (counterexample): with late surrender allowed (rule
`ruleSurrenderNoPeek`), dealer up-card 10 and a shoe of three tens, the hit
expectation of the hand 2+3 computed by the stand/hit recursion is `-0.5`:
the one-card-larger hand 2+3+10 (whose stand and hit expectations are both
`-1`) is valued at `(-0.5, Surrender)` inside the hit recursion, exactly
the surrender option the claim says is never offered there.  The variant
that follows the claim's wording (children valued at `max(stand, hit)`
only) yields `-1` instead. -/
theorem C2_counterexample :
    (standHitEx ruleSurrenderNoPeek 10 0 3 shoeThreeTens handTwoThree).hit
        = EV.fin (-(1 : ℚ) / 2) ∧
      (standHitExNoRecursiveSurrender ruleSurrenderNoPeek 10 0 3 shoeThreeTens
          handTwoThree).hit = EV.fin (-1) ∧
      getMaxExpectationEntry
          (standHitEx ruleSurrenderNoPeek 10 0 2 (shoeThreeTens.removeCard 10)
            (handTwoThree.addCard 10))
          (handTwoThree.addCard 10) ruleSurrenderNoPeek
        = (EV.fin (-(1 : ℚ) / 2), Decision.Surrender) := by
  with_unfolding_all decide

/-- Claim C2 (amended): the surrender option contributes the fixed constant
`-0.5` and is available as a top-level choice; but it is also offered
inside the recursive evaluation of the hit expectation: whenever the rule
allows late surrender, the valuation `get_max_expectation` applies to a
(deeper) non-bust, below-Charlie hand state is floored at `-0.5`, and
equals `(-0.5, Surrender)` when both that state's stand and hit
expectations are at most `-0.5`. -/
theorem C2_amended :
    (∀ (rule : Rule) (ex : Expectation) (state : CardCount),
        rule.allow_late_surrender = true → state.bust = false →
        state.total < rule.charlie_number →
        (EV.fin (-(1 : ℚ) / 2)).ble (getMaxExpectationEntry ex state rule).1 = true) ∧
      (∀ (rule : Rule) (ex : Expectation) (state : CardCount),
        rule.allow_late_surrender = true → state.bust = false →
        state.total < rule.charlie_number →
        ex.stand.ble (EV.fin (-(1 : ℚ) / 2)) = true →
        ex.hit.ble (EV.fin (-(1 : ℚ) / 2)) = true →
        getMaxExpectationEntry ex state rule = (EV.fin (-(1 : ℚ) / 2), Decision.Surrender)) := by
  constructor
  · intro rule ex state hSur hBust hTotal
    simp only [getMaxExpectationEntry, hBust, Bool.false_eq_true, if_false,
      maxStandHitSurrender, hSur, if_true]
    rw [if_neg (by omega)]
    split_ifs with h1 h2 h3
    · exact ev_ble_blt_trans (ev_ble_of_blt h1) h2
    · exact ev_ble_of_blt h1
    · exact ev_ble_of_blt h3
    · exact ev_ble_refl _
  · intro rule ex state hSur hBust hTotal hStand hHit
    simp only [getMaxExpectationEntry, hBust, Bool.false_eq_true, if_false,
      maxStandHitSurrender, hSur, if_true]
    rw [if_neg (by omega)]
    simp [ev_blt_eq_false_of_ble hStand, ev_blt_eq_false_of_ble hHit]

/-- Witness for C2 (amended) at concrete inputs. -/
theorem C2_amended_witness :
    (EV.fin (-(1 : ℚ) / 2)).ble
        (getMaxExpectationEntry { stand := EV.fin (-1), hit := EV.fin (-1) }
          (handTwoThree.addCard 10) ruleSurrenderNoPeek).1 = true ∧
      getMaxExpectationEntry { stand := EV.fin (-1), hit := EV.fin (-1) }
          (handTwoThree.addCard 10) ruleSurrenderNoPeek
        = (EV.fin (-(1 : ℚ) / 2), Decision.Surrender) :=
  ⟨C2_amended.1 ruleSurrenderNoPeek { stand := EV.fin (-1), hit := EV.fin (-1) }
      (handTwoThree.addCard 10) rfl (by with_unfolding_all decide)
      (by with_unfolding_all decide),
    C2_amended.2 ruleSurrenderNoPeek { stand := EV.fin (-1), hit := EV.fin (-1) }
      (handTwoThree.addCard 10) rfl (by with_unfolding_all decide)
      (by with_unfolding_all decide) (by with_unfolding_all decide)
      (by with_unfolding_all decide)⟩

theorem sum_univ_ten' {M : Type} [AddCommMonoid M] (f : Fin 10 → M) :
    ∑ i : Fin 10, f i = f 0 + f 1 + f 2 + f 3 + f 4 + f 5 + f 6 + f 7 + f 8 + f 9 := by
  rw [Fin.sum_univ_castSucc, Fin.sum_univ_castSucc, Fin.sum_univ_eight]
  rfl

theorem natural_hand_fields {hand : CardCount} (hwf : hand.wf) (hnat : hand.isNatural = true) :
    hand.sum = 11 ∧ hand.total = 2 ∧ hand.bust = false ∧ hand.getActualSum = 21 := by
  obtain ⟨hh, hs, ht⟩ := hwf
  unfold CardCount.isNatural at hnat
  simp only [Bool.and_eq_true, decide_eq_true_eq] at hnat
  obtain ⟨⟨ht2, hc0⟩, hc9⟩ := hnat
  have hidx1 : CardCount.idx 1 = (0 : Fin 10) := rfl
  have hidx10 : CardCount.idx 10 = (9 : Fin 10) := rfl
  rw [hidx1] at hc0
  rw [hidx10] at hc9
  rw [sum_univ_ten'] at ht hs
  rw [ht2] at ht
  rw [hc0, hc9] at ht hs
  have hsum : hand.sum = 11 := by omega
  refine ⟨hsum, ht2, ?_, ?_⟩
  · simp [CardCount.bust, hsum]
  · unfold CardCount.getActualSum CardCount.isSoft
    rw [hsum]
    have : CardCount.idx 1 = (0 : Fin 10) := rfl
    rw [this, hc0]
    norm_num

/-- Claim C8 (counterexample): with the degenerate Charlie threshold 2, a
two-card natural hand triggers the Charlie branch and is valued at `+1.0`,
not `1.0 × payout` (here payout `3/2`), even though the peek policy
(`UpAceOrTen`) makes a dealer natural impossible. -/
theorem C8_counterexample :
    (standHitEx ruleUpAceOrTenCharlie2 10 0 0 shoeThreeTens naturalHand).stand = EV.fin 1 ∧
      EV.fin 1 ≠ EV.fin ruleUpAceOrTenCharlie2.payout_blackjack ∧
      pDealerAlsoNatural ruleUpAceOrTenCharlie2 10 shoeThreeTens = 0 ∧
      naturalHand.isNatural = true := by
  with_unfolding_all decide

/-- Claim C8 (amended): for every two-card natural blackjack hand and every
rule, dealer up-card and shoe under which the dealer-natural probability
computed by `calculate_stand_odds` is zero, and whose Charlie threshold is
not 2, the stand expectation equals exactly `1.0 × payout_blackjack`. -/
theorem C8_amended (rule : Rule) (up ihc fuel : ℕ) (shoe hand : CardCount)
    (hwf : hand.wf) (hnat : hand.isNatural = true) (hch : rule.charlie_number ≠ 2)
    (hp : pDealerAlsoNatural rule up shoe = 0) :
    (standHitEx rule up ihc fuel shoe hand).stand = EV.fin rule.payout_blackjack := by
  obtain ⟨hsum, ht2, hbust, hact⟩ := natural_hand_fields hwf hnat
  rw [standHitEx.eq_def]
  simp only
  rw [if_neg (by simp [hbust])]
  rw [if_neg (by rw [ht2]; omega)]
  rw [if_pos hact]
  simp only [calculateStandOdds, hnat, if_true, hp]
  norm_num

/-- Witness for C8 (amended) at concrete inputs. -/
theorem C8_amended_witness :
    (standHitEx ruleUpAceOrTen 10 0 0 shoeThreeTens naturalHand).stand
      = EV.fin ruleUpAceOrTen.payout_blackjack :=
  C8_amended ruleUpAceOrTen 10 0 0 shoeThreeTens naturalHand
    (by with_unfolding_all decide) (by with_unfolding_all decide)
    (by with_unfolding_all decide) (by with_unfolding_all decide)

set_option maxRecDepth 4000 in
/-- Claim C7 (counterexample): at 32 decks the `u32` total ordered 3-card
draw count `(52N)(52N-1)(52N-2)` overflows (release-mode wraparound; a
debug build panics), and the enumerated weights no longer sum to 1. -/
theorem C7_counterexample :
    bettingWeightSum 32 (CardCount.withNumberOfDecks 32) ≠ 1 := by
  with_unfolding_all decide

set_option maxHeartbeats 8000000 in
set_option maxRecDepth 4000 in
/-- Claim C7 (amended): for every deck count `1 ≤ N ≤ 31` (so that the
`u32` draw-count arithmetic does not overflow — the spec's domain of play,
up to ~8 decks, lies well inside) and a fresh shoe of exactly `N` full
decks, the combinatorial weights assigned to all enumerated
(dealer up-card, first player card, second player card) combinations by
`calculate_solution_without_initial_situation` sum to exactly 1. -/
theorem C7_amended :
    ∀ n, n < 32 → 1 ≤ n → bettingWeightSum n (CardCount.withNumberOfDecks n) = 1 := by
  with_unfolding_all decide

/-- Witness for C7 (amended) at 8 decks, the configuration of the crate's
own tests. -/
theorem C7_amended_witness :
    bettingWeightSum 8 (CardCount.withNumberOfDecks 8) = 1 :=
  C7_amended 8 (by norm_num) (by norm_num)


theorem sum_Icc_shift {M : Type} [AddCommMonoid M] (g : ℕ → M) (a b : ℕ) :
    ∑ c ∈ Finset.Icc a b, g c = ∑ i ∈ Finset.range (b + 1 - a), g (a + i) := by
  rw [← Nat.Ico_succ_right, Finset.sum_Ico_eq_sum_range]

theorem total_eq_sum_get {cc : CardCount} (hwf : cc.wf) :
    cc.total = cc.get 1 + cc.get 2 + cc.get 3 + cc.get 4 + cc.get 5 + cc.get 6 + cc.get 7
      + cc.get 8 + cc.get 9 + cc.get 10 := by
  obtain ⟨_, _, ht⟩ := hwf
  rw [ht, sum_univ_ten']
  rfl

theorem sum_get_sub_Icc_1_10 {shoe extra : CardCount} (hwfS : shoe.wf) (hwfE : extra.wf)
    (hle : ∀ i : Fin 10, extra.counts i ≤ shoe.counts i) :
    ∑ c ∈ Finset.Icc 1 10, (shoe.get c - extra.get c) = shoe.total - extra.total := by
  have h1 := hle (CardCount.idx 1)
  have h2 := hle (CardCount.idx 2)
  have h3 := hle (CardCount.idx 3)
  have h4 := hle (CardCount.idx 4)
  have h5 := hle (CardCount.idx 5)
  have h6 := hle (CardCount.idx 6)
  have h7 := hle (CardCount.idx 7)
  have h8 := hle (CardCount.idx 8)
  have h9 := hle (CardCount.idx 9)
  have h10 := hle (CardCount.idx 10)
  rw [sum_Icc_shift]
  norm_num [Finset.sum_range_succ]
  rw [total_eq_sum_get hwfS, total_eq_sum_get hwfE]
  unfold CardCount.get at *
  omega

theorem sum_get_sub_Icc_1_9 {shoe extra : CardCount} (hwfS : shoe.wf)
    (hzero : ∀ i : Fin 10, extra.counts i = 0) :
    ∑ c ∈ Finset.Icc 1 9, (shoe.get c - extra.get c) = shoe.total - shoe.get 10 := by
  have h1 := hzero (CardCount.idx 1)
  have h2 := hzero (CardCount.idx 2)
  have h3 := hzero (CardCount.idx 3)
  have h4 := hzero (CardCount.idx 4)
  have h5 := hzero (CardCount.idx 5)
  have h6 := hzero (CardCount.idx 6)
  have h7 := hzero (CardCount.idx 7)
  have h8 := hzero (CardCount.idx 8)
  have h9 := hzero (CardCount.idx 9)
  rw [sum_Icc_shift]
  norm_num [Finset.sum_range_succ]
  rw [total_eq_sum_get hwfS]
  unfold CardCount.get at *
  omega

theorem sum_get_sub_Icc_2_10 {shoe extra : CardCount} (hwfS : shoe.wf)
    (hzero : ∀ i : Fin 10, extra.counts i = 0) :
    ∑ c ∈ Finset.Icc 2 10, (shoe.get c - extra.get c) = shoe.total - shoe.get 1 := by
  have h2 := hzero (CardCount.idx 2)
  have h3 := hzero (CardCount.idx 3)
  have h4 := hzero (CardCount.idx 4)
  have h5 := hzero (CardCount.idx 5)
  have h6 := hzero (CardCount.idx 6)
  have h7 := hzero (CardCount.idx 7)
  have h8 := hzero (CardCount.idx 8)
  have h9 := hzero (CardCount.idx 9)
  have h10 := hzero (CardCount.idx 10)
  rw [sum_Icc_shift]
  norm_num [Finset.sum_range_succ]
  rw [total_eq_sum_get hwfS]
  unfold CardCount.get at *
  omega

theorem sum_get_sub_Icc_1_10_zero {shoe extra : CardCount} (hwfS : shoe.wf)
    (hzero : ∀ i : Fin 10, extra.counts i = 0) :
    ∑ c ∈ Finset.Icc 1 10, (shoe.get c - extra.get c) = shoe.total := by
  have h1 := hzero (CardCount.idx 1)
  have h2 := hzero (CardCount.idx 2)
  have h3 := hzero (CardCount.idx 3)
  have h4 := hzero (CardCount.idx 4)
  have h5 := hzero (CardCount.idx 5)
  have h6 := hzero (CardCount.idx 6)
  have h7 := hzero (CardCount.idx 7)
  have h8 := hzero (CardCount.idx 8)
  have h9 := hzero (CardCount.idx 9)
  have h10 := hzero (CardCount.idx 10)
  rw [sum_Icc_shift]
  norm_num [Finset.sum_range_succ]
  rw [total_eq_sum_get hwfS]
  unfold CardCount.get at *
  omega

theorem mass_zero : (0 : WinLoseCasesOdds).mass = 0 := by
  show ((0 : ℚ) + 0 + 0) = 0
  norm_num

theorem mass_add (a b : WinLoseCasesOdds) : (a + b).mass = a.mass + b.mass := by
  show (WinLoseCasesOdds.add a b).mass = _
  unfold WinLoseCasesOdds.add WinLoseCasesOdds.mass
  ring

theorem mass_sum (s : Finset ℕ) (f : ℕ → WinLoseCasesOdds) :
    (∑ c ∈ s, f c).mass = ∑ c ∈ s, (f c).mass := by
  induction s using Finset.cons_induction with
  | empty => exact mass_zero
  | cons a s ha ih => rw [Finset.sum_cons, Finset.sum_cons, mass_add, ih]

theorem mass_mul (a : WinLoseCasesOdds) (p : ℚ) : (a.mul p).mass = a.mass * p := by
  unfold WinLoseCasesOdds.mul WinLoseCasesOdds.mass
  ring

theorem zero_win : (0 : WinLoseCasesOdds).win = 0 := rfl

theorem zero_push : (0 : WinLoseCasesOdds).push = 0 := rfl

theorem zero_lose : (0 : WinLoseCasesOdds).lose = 0 := rfl

theorem mass_addToWin (ps ds : ℕ) : (addToWinLoseCasesCount ps ds 0 1).mass = 1 := by
  unfold addToWinLoseCasesCount WinLoseCasesOdds.mass
  rcases compare ps ds <;> simp [zero_win, zero_push, zero_lose]

theorem extra_counts_zero {extra : CardCount} (hwfE : extra.wf) (hT : extra.total = 0) :
    ∀ i : Fin 10, extra.counts i = 0 := by
  intro i
  obtain ⟨_, _, htE⟩ := hwfE
  rw [hT] at htE
  exact (Finset.sum_eq_zero_iff.mp htE.symm) i (Finset.mem_univ i)

theorem dealerDrawRange_spec (rule : Rule) (dealerUpCard : ℕ) {shoe extra : CardCount}
    (hwfS : shoe.wf) (hwfE : extra.wf) (hle : ∀ i : Fin 10, extra.counts i ≤ shoe.counts i) :
    1 ≤ (dealerDrawRange rule dealerUpCard shoe extra).1 ∧
      (dealerDrawRange rule dealerUpCard shoe extra).2.1 ≤ 10 ∧
      (∑ c ∈ Finset.Icc (dealerDrawRange rule dealerUpCard shoe extra).1
          (dealerDrawRange rule dealerUpCard shoe extra).2.1, (shoe.get c - extra.get c))
        = (dealerDrawRange rule dealerUpCard shoe extra).2.2 := by
  unfold dealerDrawRange
  by_cases hT : extra.total ≠ 0
  · rw [if_pos hT]
    exact ⟨by norm_num, by norm_num, sum_get_sub_Icc_1_10 hwfS hwfE hle⟩
  · rw [if_neg hT]
    push_neg at hT
    have hz := extra_counts_zero hwfE hT
    cases rule.peek_policy with
    | UpAceOrTen =>
      simp only
      split_ifs with hu1 hu10
      · exact ⟨by norm_num, by norm_num, sum_get_sub_Icc_1_9 hwfS hz⟩
      · exact ⟨by norm_num, by norm_num, sum_get_sub_Icc_2_10 hwfS hz⟩
      · exact ⟨by norm_num, by norm_num, sum_get_sub_Icc_1_10_zero hwfS hz⟩
    | UpAce =>
      simp only
      split_ifs with hu1
      · exact ⟨by norm_num, by norm_num, sum_get_sub_Icc_1_9 hwfS hz⟩
      · exact ⟨by norm_num, by norm_num, sum_get_sub_Icc_1_10_zero hwfS hz⟩
    | NoPeek =>
      exact ⟨by norm_num, by norm_num, sum_get_sub_Icc_1_10 hwfS hwfE hle⟩

theorem dealer_hit_case (rule : Rule) (playerSum dealerUpCard : ℕ) (shoe : CardCount) (f : ℕ)
    (ih : ∀ (extra : CardCount), shoe.wf → extra.wf →
      (∀ i : Fin 10, extra.counts i ≤ shoe.counts i) →
      dealerOddsNondegenerate rule dealerUpCard shoe f extra = true →
      (memoizationFindWinLoseOdds rule playerSum dealerUpCard shoe f extra).mass = 1)
    (extra : CardCount) (hwfS : shoe.wf) (hwfE : extra.wf)
    (hle : ∀ i : Fin 10, extra.counts i ≤ shoe.counts i)
    (hpos : 0 < (dealerDrawRange rule dealerUpCard shoe extra).2.2)
    (hall : ∀ card, (dealerDrawRange rule dealerUpCard shoe extra).1 ≤ card →
      card ≤ (dealerDrawRange rule dealerUpCard shoe extra).2.1 →
      extra.get card = shoe.get card ∨
        dealerOddsNondegenerate rule dealerUpCard shoe f (extra.addCard card) = true) :
    (∑ x ∈ Finset.Icc (dealerDrawRange rule dealerUpCard shoe extra).1
        (dealerDrawRange rule dealerUpCard shoe extra).2.1,
      if extra.get x = shoe.get x then 0
      else (memoizationFindWinLoseOdds rule playerSum dealerUpCard shoe f (extra.addCard x)).mul
        (((shoe.get x - extra.get x : ℕ) : ℚ)
          / ((dealerDrawRange rule dealerUpCard shoe extra).2.2 : ℚ))).mass = 1 := by
  obtain ⟨hlo, hhi, hsum⟩ := dealerDrawRange_spec rule dealerUpCard hwfS hwfE hle
  rw [mass_sum]
  have key : ∀ c ∈ Finset.Icc (dealerDrawRange rule dealerUpCard shoe extra).1
      (dealerDrawRange rule dealerUpCard shoe extra).2.1,
      (if extra.get c = shoe.get c then (0 : WinLoseCasesOdds)
        else (memoizationFindWinLoseOdds rule playerSum dealerUpCard shoe f
            (extra.addCard c)).mul
          (((shoe.get c - extra.get c : ℕ) : ℚ)
            / ((dealerDrawRange rule dealerUpCard shoe extra).2.2 : ℚ))).mass
      = ((shoe.get c - extra.get c : ℕ) : ℚ)
          / ((dealerDrawRange rule dealerUpCard shoe extra).2.2 : ℚ) := by
    intro c hc
    rw [Finset.mem_Icc] at hc
    by_cases hskip : extra.get c = shoe.get c
    · rw [if_pos hskip, mass_zero, hskip, Nat.sub_self, Nat.cast_zero, zero_div]
    · rw [if_neg hskip, mass_mul]
      have h1c : 1 ≤ c := le_trans hlo hc.1
      have h10c : c ≤ 10 := le_trans hc.2 hhi
      have hle2 : ∀ i : Fin 10, (extra.addCard c).counts i ≤ shoe.counts i := by
        intro i
        show Function.update extra.counts (CardCount.idx c)
          (extra.counts (CardCount.idx c) + 1) i ≤ _
        rcases eq_or_ne i (CardCount.idx c) with rfl | hne
        · rw [Function.update_same]
          have hne2 : extra.counts (CardCount.idx c) ≠ shoe.counts (CardCount.idx c) := hskip
          have hle_c := hle (CardCount.idx c)
          omega
        · rw [Function.update_noteq hne]
          exact hle i
      have hnd2 := (hall c hc.1 hc.2).resolve_left hskip
      rw [ih (extra.addCard c) hwfS (addCard_wf hwfE h1c h10c) hle2 hnd2, one_mul]
  rw [Finset.sum_congr rfl key, ← Finset.sum_div, ← Nat.cast_sum, hsum]
  exact div_self (Nat.cast_pos.mpr hpos).ne'

/-- Claim C3: the dealer outcome distribution is a probability
distribution.  For every rule, player sum, dealer up-card and shoe, and
every dealer extra-hand state contained in the shoe from which the
recursion subtree is non-degenerate (every non-terminal state it reaches
has a positive valid-draw denominator — the spec's non-degenerate-shoe
hypothesis), win + push + lose of the computed odds equals exactly 1. -/
theorem C3_thm (rule : Rule) (playerSum dealerUpCard : ℕ) (shoe : CardCount) :
    ∀ (fuel : ℕ) (extra : CardCount), shoe.wf → extra.wf →
      (∀ i : Fin 10, extra.counts i ≤ shoe.counts i) →
      dealerOddsNondegenerate rule dealerUpCard shoe fuel extra = true →
      (memoizationFindWinLoseOdds rule playerSum dealerUpCard shoe fuel extra).mass = 1 := by
  intro fuel
  induction fuel with
  | zero =>
    intro extra hwfS hwfE hle hnd
    rw [dealerOddsNondegenerate.eq_def] at hnd
    rw [memoizationFindWinLoseOdds.eq_def]
    simp only at hnd ⊢
    split_ifs at hnd ⊢ <;>
      first
        | (show ((1 : ℚ) + 0 + 0) = 1; norm_num)
        | exact mass_addToWin _ _
        | (show ((0 : ℚ) + 0 + 1) = 1; norm_num)
        | exact (Bool.false_ne_true hnd).elim
  | succ f ih =>
    intro extra hwfS hwfE hle hnd
    rw [dealerOddsNondegenerate.eq_def] at hnd
    rw [memoizationFindWinLoseOdds.eq_def]
    simp only at hnd ⊢
    split_ifs at hnd ⊢ <;>
      first
        | (show ((1 : ℚ) + 0 + 0) = 1; norm_num)
        | exact mass_addToWin _ _
        | (show ((0 : ℚ) + 0 + 1) = 1; norm_num)
        | (simp only [Bool.and_eq_true, decide_eq_true_eq, Finset.mem_Icc, and_imp] at hnd
           exact dealer_hit_case rule playerSum dealerUpCard shoe f ih extra hwfS hwfE hle
             hnd.1 hnd.2)

/-- Witness for C3 at a concrete input (shoe of one ten, dealer up-card
10, player sum 18: the dealer draws the ten, stands on 20, player loses;
the distribution is (0, 0, 1) and sums to 1). -/
theorem C3_witness :
    dealerOddsNondegenerate ruleSurrenderNoPeek 10 shoeOneTen 1 zeroHand = true ∧
      (memoizationFindWinLoseOdds ruleSurrenderNoPeek 18 10 shoeOneTen 1 zeroHand).mass = 1 :=
  ⟨by with_unfolding_all decide,
    C3_thm ruleSurrenderNoPeek 18 10 shoeOneTen 1 zeroHand (by with_unfolding_all decide)
      (by with_unfolding_all decide) (by with_unfolding_all decide)
      (by with_unfolding_all decide)⟩

/-- Source MOD is positive. -/
theorem MOD_pos : 0 < MOD := by unfold MOD; norm_num

/-- The incrementally used power table holds the true powers reduced mod MOD. -/
theorem powBase_eq (n : ℕ) : powBase n = BASE ^ n % MOD := by
  induction n with
  | zero => rw [powBase, pow_zero, Nat.mod_eq_of_lt (by unfold MOD; norm_num)]
  | succ n ih => rw [powBase, ih, pow_succ, Nat.mod_mul_mod]

/-- The from-scratch fingerprint is the true base-BASE polynomial value mod MOD. -/
theorem scratchHash_mod (c : Fin 10 → ℕ) :
    CardCount.scratchHash c = (∑ i : Fin 10, c i * BASE ^ i.val) % MOD := by
  unfold CardCount.scratchHash
  have key : ∀ i : Fin 10, c i * powBase i.val % MOD = c i * BASE ^ i.val % MOD := by
    intro i
    conv_lhs => rw [Nat.mul_mod]
    conv_rhs => rw [Nat.mul_mod]
    rw [powBase_eq, Nat.mod_mod_of_dvd _ dvd_rfl]
  rw [Finset.sum_nat_mod]
  conv_rhs => rw [Finset.sum_nat_mod]
  rw [Finset.sum_congr rfl fun i _ => key i]

/-- Equal fingerprints force MOD to divide the difference of the true
polynomial values. -/
theorem hash_dvd {a b : Fin 10 → ℕ}
    (hh : CardCount.scratchHash a = CardCount.scratchHash b) :
    (MOD : ℤ) ∣ (∑ i : Fin 10, (a i : ℤ) * (BASE : ℤ) ^ i.val)
      - ∑ i : Fin 10, (b i : ℤ) * (BASE : ℤ) ^ i.val := by
  rw [scratchHash_mod, scratchHash_mod] at hh
  have hd := Nat.ModEq.dvd (hh.symm : Nat.ModEq MOD _ _)
  push_cast at hd
  exact hd

/-- A vanishing balanced-digit combination has all digits zero. -/
theorem balanced_digits_zero (bnd : ℕ) (hbnd : 2 * bnd < BASE) :
    ∀ (steps : ℕ) (d : ℕ → ℤ),
      (∀ i, i < steps → -(bnd : ℤ) ≤ d i ∧ d i ≤ bnd) →
      ∑ i ∈ Finset.range steps, d i * (BASE : ℤ) ^ i = 0 →
      ∀ i, i < steps → d i = 0 := by
  intro steps
  induction steps with
  | zero => intro d _ _ i hi; omega
  | succ n ih =>
    intro d hdb hsum i hi
    rw [Finset.sum_range_succ'] at hsum
    have hfac : ∑ i ∈ Finset.range n, d (i + 1) * (BASE : ℤ) ^ (i + 1)
        = (BASE : ℤ) * ∑ i ∈ Finset.range n, d (i + 1) * (BASE : ℤ) ^ i := by
      rw [Finset.mul_sum]
      exact Finset.sum_congr rfl fun j _ => by ring
    rw [hfac, pow_zero, mul_one] at hsum
    set y := ∑ i ∈ Finset.range n, d (i + 1) * (BASE : ℤ) ^ i with hy
    have hd0 := hdb 0 (by omega)
    have hB : (BASE : ℤ) = 211 := by norm_num [BASE]
    have hbnd' : 2 * bnd < 211 := by simpa [BASE] using hbnd
    rw [hB] at hsum
    have hy0 : y = 0 := by omega
    have hd00 : d 0 = 0 := by omega
    rcases i with _ | j
    · exact hd00
    · exact ih (fun m => d (m + 1)) (fun m hm => hdb (m + 1) (by omega))
        (by rw [← hy]; exact hy0) j (by omega)

/-- Completeness of the balanced digit extraction: any value expressible
with balanced digits within the bound and a nonnegative top part is found
by the deterministic extraction. -/
theorem balancedDigitsRemainder_complete (bnd : ℕ) (hbnd : 2 * bnd < BASE) :
    ∀ (steps : ℕ) (d : ℕ → ℤ) (t x : ℕ),
      (∀ i, i < steps → -(bnd : ℤ) ≤ d i ∧ d i ≤ bnd) →
      (x : ℤ) = (∑ i ∈ Finset.range steps, d i * (BASE : ℤ) ^ i) + t * (BASE : ℤ) ^ steps →
      balancedDigitsRemainder bnd steps x = some t := by
  intro steps
  induction steps with
  | zero =>
    intro d t x _ hx
    simp only [Finset.range_zero, Finset.sum_empty, pow_zero, mul_one, zero_add] at hx
    have hxt : x = t := by exact_mod_cast hx
    rw [hxt]
    rfl
  | succ n ih =>
    intro d t x hdb hx
    have hfac0 : ∑ i ∈ Finset.range n, d (i + 1) * (BASE : ℤ) ^ (i + 1)
        = (BASE : ℤ) * ∑ i ∈ Finset.range n, d (i + 1) * (BASE : ℤ) ^ i := by
      rw [Finset.mul_sum]
      exact Finset.sum_congr rfl fun j _ => by ring
    set y := (∑ i ∈ Finset.range n, d (i + 1) * (BASE : ℤ) ^ i) + (t : ℤ) * (BASE : ℤ) ^ n
      with hy
    have hfac : (x : ℤ) = d 0 + (BASE : ℤ) * y := by
      rw [hx, Finset.sum_range_succ', hfac0, hy]
      ring
    have hB : (BASE : ℤ) = 211 := by norm_num [BASE]
    have hbnd' : 2 * bnd < 211 := by simpa [BASE] using hbnd
    have hd0 := hdb 0 (by omega)
    rw [hB] at hfac
    rcases le_or_lt 0 (d 0) with hpos | hneg
    · have hy0 : 0 ≤ y := by omega
      have hmod : x % 211 = (d 0).toNat := by omega
      have hdiv : x / 211 = y.toNat := by omega
      simp only [balancedDigitsRemainder, BASE]
      rw [hmod, if_pos (by omega : (d 0).toNat ≤ bnd), hdiv]
      exact ih (fun m => d (m + 1)) t y.toNat (fun m hm => hdb (m + 1) (by omega))
        (by rw [Int.toNat_of_nonneg hy0, hy])
    · have hy1 : 1 ≤ y := by omega
      have hmod : x % 211 = (d 0 + 211).toNat := by omega
      have hdiv : x / 211 = (y - 1).toNat := by omega
      simp only [balancedDigitsRemainder, BASE]
      rw [hmod, if_neg (by omega : ¬ (d 0 + 211).toNat ≤ bnd),
        if_pos (by omega : 211 - bnd ≤ (d 0 + 211).toNat), hdiv]
      have hsucc : (y - 1).toNat + 1 = y.toNat := by omega
      rw [hsucc]
      exact ih (fun m => d (m + 1)) t y.toNat (fun m hm => hdb (m + 1) (by omega))
        (by rw [Int.toNat_of_nonneg (by omega), hy])

/-- Soundness of the divide-and-conquer range check: a true result means
no k in the half-open range collides. -/
theorem noCollisionRange_spec (bnd9 bnd10 : ℕ) :
    ∀ (fuel lo hi k : ℕ), noCollisionRange bnd9 bnd10 fuel lo hi = true →
      lo ≤ k → k < hi → kCollides bnd9 bnd10 k = false := by
  intro fuel
  induction fuel with
  | zero =>
    intro lo hi k h hk1 hk2
    simp only [noCollisionRange, decide_eq_true_eq] at h
    exact absurd hk2 (by omega)
  | succ f ih =>
    intro lo hi k h hk1 hk2
    rw [noCollisionRange] at h
    split_ifs at h with h1 h2
    · exact absurd hk2 (by omega)
    · have hk : k = lo := by omega
      subst hk
      simpa using h
    · rw [Bool.and_eq_true] at h
      rcases lt_or_le k ((lo + hi) / 2) with hlt | hge
      · exact ih lo ((lo + hi) / 2) k h.1 hk1 hlt
      · exact ih ((lo + hi) / 2) hi k h.2 hge hk2

set_option maxHeartbeats 4000000 in
/-- Exhaustive kernel check: no multiple k·MOD with 1 ≤ k ≤ 20868 has a
balanced-digit decomposition within the six-deck bounds. -/
theorem noCollision_sixDeck : noCollisionRange 24 96 16 1 20869 = true := by decide

/-- Injectivity of the true polynomial value within six-deck bounds, for
the ordered pair (larger value first). -/
theorem hash_inj_aux (a b : Fin 10 → ℕ)
    (ha : ∀ i : Fin 10, a i ≤ sixDeckBound i) (hb : ∀ i : Fin 10, b i ≤ sixDeckBound i)
    (hle : ∑ i : Fin 10, (b i : ℤ) * (BASE : ℤ) ^ i.val
      ≤ ∑ i : Fin 10, (a i : ℤ) * (BASE : ℤ) ^ i.val)
    (hdvd : (MOD : ℤ) ∣ (∑ i : Fin 10, (a i : ℤ) * (BASE : ℤ) ^ i.val)
      - ∑ i : Fin 10, (b i : ℤ) * (BASE : ℤ) ^ i.val) : a = b := by
  set d : ℕ → ℤ :=
    fun n => if h : n < 10 then (a ⟨n, h⟩ : ℤ) - (b ⟨n, h⟩ : ℤ) else 0 with hd
  have hsum : (∑ i : Fin 10, (a i : ℤ) * (BASE : ℤ) ^ i.val)
      - ∑ i : Fin 10, (b i : ℤ) * (BASE : ℤ) ^ i.val
      = ∑ n ∈ Finset.range 10, d n * (BASE : ℤ) ^ n := by
    rw [← Fin.sum_univ_eq_sum_range (fun n => d n * (BASE : ℤ) ^ n) 10,
      ← Finset.sum_sub_distrib]
    refine Finset.sum_congr rfl fun i _ => ?_
    simp only [hd, dif_pos i.isLt, Fin.eta]
    ring
  have hdbnd105 : ∀ i : Fin 10, -(105 : ℤ) ≤ d i.val ∧ d i.val ≤ 105 := by
    intro i
    have h1 := ha i
    have h2 := hb i
    simp only [sixDeckBound] at h1 h2
    simp only [hd]
    rw [dif_pos i.isLt]
    simp only [Fin.eta]
    split_ifs at h1 h2 <;> omega
  have hdbnd : ∀ i, i < 9 → -(24 : ℤ) ≤ d i ∧ d i ≤ 24 := by
    intro i hi
    have hilt : i < 10 := by omega
    have h1 := ha ⟨i, hilt⟩
    have h2 := hb ⟨i, hilt⟩
    have hv : ((⟨i, hilt⟩ : Fin 10) : ℕ) = i := rfl
    simp only [sixDeckBound, hv] at h1 h2
    rw [if_neg (by omega : ¬ i = 9)] at h1 h2
    simp only [hd]
    rw [dif_pos hilt]
    omega
  have h9lt : (9 : ℕ) < 10 := by norm_num
  have hd9 : -(96 : ℤ) ≤ d 9 ∧ d 9 ≤ 96 := by
    have h1 := ha ⟨9, h9lt⟩
    have h2 := hb ⟨9, h9lt⟩
    have hv : ((⟨9, h9lt⟩ : Fin 10) : ℕ) = 9 := rfl
    simp only [sixDeckBound, hv, if_true] at h1 h2
    simp only [hd]
    rw [dif_pos h9lt]
    omega
  obtain ⟨k, hk⟩ := hdvd
  have hMODcast : (MOD : ℤ) = 3817949514078926267 := rfl
  have hA_bound : ∑ i : Fin 10, (a i : ℤ) * (BASE : ℤ) ^ i.val
      ≤ 79676461867178394046392 := by
    calc ∑ i : Fin 10, (a i : ℤ) * (BASE : ℤ) ^ i.val
        ≤ ∑ i : Fin 10, (sixDeckBound i : ℤ) * (BASE : ℤ) ^ i.val := by
          refine Finset.sum_le_sum fun i _ => ?_
          have h1 := ha i
          have hp : (0 : ℤ) ≤ (BASE : ℤ) ^ i.val := by positivity
          exact mul_le_mul_of_nonneg_right (by exact_mod_cast h1) hp
      _ = 79676461867178394046392 := by with_unfolding_all decide
  have hB_nonneg : 0 ≤ ∑ i : Fin 10, (b i : ℤ) * (BASE : ℤ) ^ i.val := by
    refine Finset.sum_nonneg fun i _ => ?_
    positivity
  rw [hMODcast] at hk
  have hk0 : 0 ≤ k := by omega
  have hkle : k ≤ 20868 := by omega
  rcases eq_or_lt_of_le hk0 with hk00 | hkpos
  · have hzero : ∑ n ∈ Finset.range 10, d n * (BASE : ℤ) ^ n = 0 := by
      rw [← hsum, hk, ← hk00, mul_zero]
    have hall := balanced_digits_zero 105 (by norm_num [BASE]) 10 d
      (fun i hi => hdbnd105 ⟨i, hi⟩) hzero
    funext i
    have hz := hall i.val i.isLt
    simp only [hd, dif_pos i.isLt, Fin.eta] at hz
    omega
  · have hsplit : (3817949514078926267 : ℤ) * k
        = (∑ n ∈ Finset.range 9, d n * (BASE : ℤ) ^ n) + d 9 * (BASE : ℤ) ^ 9 := by
      rw [← hk, hsum, Finset.sum_range_succ]
    have hB9 : (BASE : ℤ) ^ 9 = 828976267940322173491 := by norm_num [BASE]
    have hS9u : ∑ n ∈ Finset.range 9, d n * (BASE : ℤ) ^ n ≤ 94740144907465391256 := by
      calc ∑ n ∈ Finset.range 9, d n * (BASE : ℤ) ^ n
          ≤ ∑ n ∈ Finset.range 9, 24 * (BASE : ℤ) ^ n := by
            refine Finset.sum_le_sum fun n hn => ?_
            have hp : (0 : ℤ) ≤ (BASE : ℤ) ^ n := by positivity
            exact mul_le_mul_of_nonneg_right (hdbnd n (Finset.mem_range.mp hn)).2 hp
        _ = 94740144907465391256 := by norm_num [Finset.sum_range_succ, BASE]
    have hd9nn : 0 ≤ d 9 := by
      by_contra hneg
      push_neg at hneg
      rw [hB9] at hsplit
      omega
    set kn := k.toNat with hkn
    have hknz : ((kn : ℕ) : ℤ) = k := by omega
    have hx : ((kn * MOD : ℕ) : ℤ)
        = (∑ n ∈ Finset.range 9, d n * (BASE : ℤ) ^ n)
          + ((d 9).toNat : ℤ) * (BASE : ℤ) ^ 9 := by
      push_cast
      rw [hknz, Int.toNat_of_nonneg hd9nn, hMODcast]
      linarith [hsplit]
    have hcol : kCollides 24 96 kn = true := by
      unfold kCollides
      rw [balancedDigitsRemainder_complete 24 (by norm_num [BASE]) 9 d (d 9).toNat (kn * MOD)
        (fun i hi => hdbnd i hi) hx]
      show decide ((d 9).toNat ≤ 96) = true
      simp only [decide_eq_true_eq]
      omega
    have hfalse := noCollisionRange_spec 24 96 16 1 20869 kn noCollision_sixDeck
      (by omega) (by omega)
    rw [hcol] at hfalse
    exact absurd hfalse (by simp)

/-- Claim C4 counterexample: within the claimed 8-deck bounds (at most 32
of each rank 1..=9 and at most 128 of rank 10) the fingerprint is NOT
injective: two distinct in-bounds count vectors produce the same canonical
key. -/
theorem C4_counterexample :
    (∀ i : Fin 10, collisionCountsA i ≤ eightDeckBound i) ∧
      (∀ i : Fin 10, collisionCountsB i ≤ eightDeckBound i) ∧
      collisionCountsA ≠ collisionCountsB ∧
      (CardCount.new collisionCountsA).hash_value
        = (CardCount.new collisionCountsB).hash_value := by
  with_unfolding_all decide

/-- Claim C4 (amended): the canonical key IS injective on the six-deck
domain: for any two count vectors with at most 24 of each rank 1..=9 and
at most 96 of rank 10, equal canonical keys force equal vectors. -/
theorem C4_amended (a b : Fin 10 → ℕ)
    (ha : ∀ i : Fin 10, a i ≤ sixDeckBound i) (hb : ∀ i : Fin 10, b i ≤ sixDeckBound i)
    (hh : (CardCount.new a).hash_value = (CardCount.new b).hash_value) : a = b := by
  have hh' : CardCount.scratchHash a = CardCount.scratchHash b := hh
  rcases le_total (∑ i : Fin 10, (b i : ℤ) * (BASE : ℤ) ^ i.val)
      (∑ i : Fin 10, (a i : ℤ) * (BASE : ℤ) ^ i.val) with h | h
  · exact hash_inj_aux a b ha hb h (hash_dvd hh')
  · exact (hash_inj_aux b a hb ha h (hash_dvd hh'.symm)).symm

/-- Witness for C4 (amended) at a concrete in-bounds vector. -/
theorem C4_amended_witness :
    (∀ i : Fin 10, collisionCountsB i ≤ sixDeckBound i)
      ∧ collisionCountsB = collisionCountsB :=
  ⟨by decide, C4_amended collisionCountsB collisionCountsB (by decide) (by decide) rfl⟩
